import Mathlib

/-!
Verification of `src/sage/rings/invariants/reconstruction.py`.

The module reconstructs binary forms (homogeneous polynomials in two
variables) of degree 2, 3 or 5 from the values of their classical
invariants.  We give a shallow embedding of the module's functions:
pure functions over an exact field `K`, with the Python exceptions
modelled by an `Except` result.  The duck-typed capabilities of the
Sage domain (characteristic, square testing, square roots, gcd of a
list, reduction of weighted invariants) are collected in a context
structure, instantiated for `ℚ` by executable definitions below.
-/

/-- The error kinds raised by `reconstruction.py`.

* `invalidInput` models Python `ValueError` raised on input validation
  (including the `ValueError` raised by a failing tuple unpacking);
* `ambiguousReconstruction` models the `ValueError` raised when several
  inequivalent forms share the supplied invariants;
* `unsupportedDomain` and `unsupportedDegree` model `NotImplementedError`;
* `arithmeticError` models the Sage `ArithmeticError` raised by
  `(0).factor()`;
* `zeroDivisionError` models Python `ZeroDivisionError`. -/
inductive ReconstructionError where
  | invalidInput (msg : String)
  | ambiguousReconstruction (msg : String)
  | unsupportedDomain (msg : String)
  | unsupportedDegree (msg : String)
  | arithmeticError (msg : String)
  | zeroDivisionError (msg : String)
  deriving DecidableEq, Repr

/-- The capabilities of the exact field `K` that
`binary_quintic_from_invariants` uses through Sage's duck typing:
`K.characteristic()`, `R2.is_square()`, `sqrt`, `gcd` of a list of
field elements, and the invariant reduction routine used by the
`coprime` scaling (which needs factorization, hence lives in the
domain's capabilities). -/
structure QuinticCtx (K : Type) where
  char : ℕ
  isSquareB : K → Bool
  sqrtFn : K → K
  gcdFn : List K → K
  reduceFn : List K → List ℤ → Except ReconstructionError (List K)

/-! ### Executable arithmetic for the rational domain

`multFuel`/`multNat`/`multRat` compute the multiplicity of a prime in a
natural, respectively rational, number: the exponents in Sage's
`I.factor()` for `I` a rational number.  `natSqrtFuel` is an executable
floor square root used by the `ℚ` models of Sage's `is_square` and
`sqrt`. -/

/-- Fuel-driven multiplicity: the number of times `p ≥ 2` divides `n ≠ 0`,
with enough fuel. -/
def multFuel (p : ℕ) : ℕ → ℕ → ℕ
  | 0, _ => 0
  | fuel+1, n => if 2 ≤ p ∧ n ≠ 0 ∧ p ∣ n then multFuel p fuel (n / p) + 1 else 0

/-- The multiplicity of `p` in `n` (`0` when `p < 2` or `n = 0`). -/
def multNat (p n : ℕ) : ℕ := multFuel p n n

/-- The multiplicity of the prime `p` in the nonzero rational `q`:
the exponent of `p` in Sage's `q.factor()`. -/
def multRat (p : ℕ) (q : ℚ) : ℤ := (multNat p q.num.natAbs : ℤ) - (multNat p q.den : ℤ)

/-- Fuel-driven floor square root: the largest `k ≤ fuel` with `k^2 ≤ n`. -/
def natSqrtFuel : ℕ → ℕ → ℕ
  | 0, _ => 0
  | fuel+1, n => if (fuel+1)*(fuel+1) ≤ n then fuel+1 else natSqrtFuel fuel n

/-- Executable model of Sage's `QQ.is_square`: a rational is a square
iff it is nonnegative and its reduced numerator and denominator are
perfect squares. -/
def ratIsSquare (q : ℚ) : Bool :=
  0 ≤ q.num
    && natSqrtFuel q.num.toNat q.num.toNat * natSqrtFuel q.num.toNat q.num.toNat == q.num.toNat
    && natSqrtFuel q.den q.den * natSqrtFuel q.den q.den == q.den

/-- Executable model of Sage's `sqrt` on rational squares (junk value on
non-squares, where the Sage value would leave `ℚ`). -/
def ratSqrt (q : ℚ) : ℚ :=
  (natSqrtFuel q.num.toNat q.num.toNat : ℚ) / (natSqrtFuel q.den q.den : ℚ)

/-- The numerator of Sage's gcd of a list of rationals: the gcd of the
reduced numerators. -/
def ratGcdNum (l : List ℚ) : ℕ := l.foldr (fun q g => Nat.gcd q.num.natAbs g) 0

/-- The denominator of Sage's gcd of a list of rationals: the lcm of the
reduced denominators. -/
def ratGcdDen (l : List ℚ) : ℕ := l.foldr (fun q m => Nat.lcm q.den m) 1

/-- Sage's gcd of a list of rationals: the gcd of the numerators divided
by the lcm of the denominators. -/
def ratGcd (l : List ℚ) : ℚ := (ratGcdNum l : ℚ) / (ratGcdDen l : ℚ)

/-- The primes dividing `n`, as an executable finite set. -/
def natPrimesOf (n : ℕ) : Finset ℕ :=
  (Finset.range (n+1)).filter (fun p => Nat.Prime p ∧ p ∣ n)

/-- The primes appearing in Sage's factorization of `gcd(invariants)`
for a list of rationals: the primes of the reduced numerator together
with the primes of the reduced denominator of the gcd. -/
def gcdPrimes (l : List ℚ) : Finset ℕ :=
  natPrimesOf (ratGcdNum l) ∪ natPrimesOf (ratGcdDen l)

/-- Minimum of a list of integers (Python's `min`; junk `0` on the empty
list, where Python raises). -/
def listMinInt : List ℤ → ℤ
  | [] => 0
  | [a] => a
  | a :: b :: l => min a (listMinInt (b :: l))

/-- Maximum of a list of integers (junk `0` on the empty list); used to
express the valuation of the lcm of the denominators. -/
def listMaxInt : List ℤ → ℤ
  | [] => 0
  | [a] => a
  | a :: b :: l => max a (listMaxInt (b :: l))

/-- The exponent of the prime `p` in the scalar accumulated by
`reduce_invariants`: `min([factors[i][p] // weights[i] for i in range(n)])`
with `n = len(weights)` and Python floor division. -/
def reduceExp (invariants : List ℚ) (weights : List ℤ) (p : ℕ) : ℤ :=
  listMinInt ((List.range weights.length).map
    (fun i => Int.fdiv (multRat p (invariants.getD i 0)) (weights.getD i 0)))

/-- The scalar accumulated by `reduce_invariants`: the product over the
primes of `gcd(invariants)` of `p ** min([factors[i][p] // weights[i]])`. -/
def reduceScalar (invariants : List ℚ) (weights : List ℤ) : ℚ :=
  (gcdPrimes invariants).prod (fun p => (p : ℚ) ^ (reduceExp invariants weights p))

/-- `reduce_invariants(invariants, weights)`: factor each invariant and
the gcd of the invariants, accumulate the scalar above, and divide each
invariant by the scalar raised to its weight.  Sage's `factor` raises
`ArithmeticError` on `0`, which happens exactly when some invariant is
`0`, or (through `gcd([]) == 0`) when the list is empty. -/
def reduce_invariants (invariants : List ℚ) (weights : List ℤ) :
    Except ReconstructionError (List ℚ) :=
  if invariants = [] ∨ (0 : ℚ) ∈ invariants then
    .error (.arithmeticError "factorization of 0 is not defined")
  else
    .ok ((List.range weights.length).map
      (fun i => invariants.getD i 0 * (reduceScalar invariants weights) ^ (-(weights.getD i 0))))

/-! ### The degree-5 reconstruction -/

/-- `M = 2*A*B - 3*C`, the first derived Clebsch quantity. -/
def clebschM {K : Type} [Field K] (A B C : K) : K := 2 * A * B - 3 * C

/-- `N = K(2)**-1 * (A*C - B**2)`. -/
def clebschN {K : Type} [Field K] (A B C : K) : K := (2 : K)⁻¹ * (A * C - B ^ 2)

/-- `R2 = -K(2)**-1 * (A*N**2 - 2*B*M*N + C*M**2)`, the square of the
syzygy root determined by the Clebsch syzygy. -/
def clebschR2 {K : Type} [Field K] (A B C : K) : K :=
  -(2 : K)⁻¹ * (A * clebschN A B C ^ 2 - 2 * B * clebschM A B C * clebschN A B C +
    C * clebschM A B C ^ 2)

/-- `scale = [1,1,1,1,1,1]`, the default scaling factors. -/
def onesList (K : Type) [Field K] : List K := [1, 1, 1, 1, 1, 1]

/-- `scale = [A**-14*(R/A**3)**i for i in range(6)]`: the `normalized`
scaling factors in the case `M = 0`, `N ≠ 0`, `A ≠ 0` (scaling `z` by
`R/A**3`). -/
def scaleAG {K : Type} [Field K] (A R : K) : List K :=
  (List.range 6).map (fun i => A ^ (-14 : ℤ) * (R / A ^ 3) ^ i)

/-- `scale = [sqrt(A)**(i-18) for i in range(6)]`: the `normalized`
scaling factors in the case `M ≠ 0`, `R = 0`, `A ≠ 0` (scaling `x` by
`A` and `z` by `sqrt(A)`). -/
def scaleSqrtA {K : Type} [Field K] (sqrtA : K) : List K :=
  (List.range 6).map (fun i => sqrtA ^ ((i : ℤ) - 18))

/-- `scale = [R**-2*(R/B**2)**i for i in range(6)]`: the `normalized`
scaling factors in the case `M ≠ 0`, `R ≠ 0`, `A = 0`, `B ≠ 0`. -/
def scaleRB {K : Type} [Field K] (B R : K) : List K :=
  (List.range 6).map (fun i => R ^ (-2 : ℤ) * (R / B ^ 2) ^ i)

/-- `scale = [A**-9*(R/A**4)**i for i in range(6)]`: the `normalized`
scaling factors in the case `M ≠ 0`, `R ≠ 0`, `A ≠ 0`. -/
def scaleA9 {K : Type} [Field K] (A R : K) : List K :=
  (List.range 6).map (fun i => A ^ (-9 : ℤ) * (R / A ^ 4) ^ i)

/-- The final step shared by all general branches: divide the
coefficients by their gcd when `scaling == 'coprime'` (Python divides by
`gcd(coeffs)`, raising `ZeroDivisionError` when that gcd is `0`), and
return them unchanged otherwise. -/
def quinticFinish {K : Type} [Field K] [DecidableEq K] (ctx : QuinticCtx K)
    (scaling : String) (coeffs : List K) : Except ReconstructionError (List K) :=
  if scaling = "coprime" then
    if ctx.gcdFn coeffs = 0 then .error (.zeroDivisionError "rational division by zero")
    else .ok (coeffs.map (fun c => c / ctx.gcdFn coeffs))
  else .ok coeffs

/-- The tail shared by the two coordinate choices: from
`a[0] = (2/3*A**2-B)*R`, `a[1]`, `D`, `Delta`, `B0`, `B1`, `C0`, `C1`
compute `a[2]..a[5]` and the coefficients
`(-1)**i * binomial(5,i) * scale[5-i] * a[i]`. -/
def quinticCommon {K : Type} [Field K] [DecidableEq K] (ctx : QuinticCtx K)
    (scaling : String) (A B R D Delta a1 B0 B1 C0 C1 : K) (scale : List K) :
    Except ReconstructionError (List K) :=
  let a0 := (2 * (3 : K)⁻¹ * A ^ 2 - B) * R
  let a2 := -D * B0 - (2 : K)⁻¹ * Delta * a0
  let a3 := -D * B1 - (2 : K)⁻¹ * Delta * a1
  let a4 := D ^ 2 * C0 + D * Delta * B0 + (4 : K)⁻¹ * Delta ^ 2 * a0
  let a5 := D ^ 2 * C1 + D * Delta * B1 + (4 : K)⁻¹ * Delta ^ 2 * a1
  quinticFinish ctx scaling ((List.range 6).map
    (fun i => (-1 : K) ^ i * (Nat.choose 5 i : K) * scale.getD (5 - i) 1 *
      ([a0, a1, a2, a3, a4, a5].getD i 0)))

/-- The branch of the quintic reconstruction that uses the covariants
`alpha` and `gamma` as coordinates (`M = 0`, `N ≠ 0`, `A ≠ 0`):
`D = -N`, `Delta = C`, with its own `a[1]`, `B0`, `B1`, `C0`, `C1`. -/
def quinticTailAG {K : Type} [Field K] [DecidableEq K] (ctx : QuinticCtx K)
    (scaling : String) (A B C N R : K) (scale : List K) :
    Except ReconstructionError (List K) :=
  quinticCommon ctx scaling A B R (-N) C
    ((2 * (3 : K)⁻¹ * A ^ 2 - B) * N * B * (2 : K)⁻¹ - N ^ 2 * (2 : K)⁻¹)
    (2 * (3 : K)⁻¹ * A * R) (A * N * B * (3 : K)⁻¹) (2 * (3 : K)⁻¹ * R) (B * N)
    scale

/-- The branch of the quintic reconstruction that uses the covariants
`alpha` and `beta` as coordinates (`M ≠ 0`): `D = -M`, `Delta = A`,
with its own `a[1]`, `B0 = R`, `B1`, `C0 = 0`, `C1 = -M`. -/
def quinticTailAB {K : Type} [Field K] [DecidableEq K] (ctx : QuinticCtx K)
    (scaling : String) (A B M N R : K) (scale : List K) :
    Except ReconstructionError (List K) :=
  quinticCommon ctx scaling A B R (-M) A
    ((2 * (3 : K)⁻¹ * A ^ 2 - B) * (N * A - M * B) * (2 : K)⁻¹ -
      M * (N * (2 : K)⁻¹ - M * A * (3 : K)⁻¹))
    R ((2 : K)⁻¹ * (N * A - M * B)) 0 (-M)
    scale

/-- The case split of `binary_quintic_from_invariants` on the vanishing
of `M`, `N`, `A`, `B`, `R` (after the syzygy root `R` has been
determined), returning the closed-form special tuples, or dispatching to
the `alpha`/`gamma` or `alpha`/`beta` coordinates with the appropriate
`normalized` scale factors. -/
def quinticCase {K : Type} [Field K] [DecidableEq K] (ctx : QuinticCtx K)
    (scaling : String) (A B C M N R : K) : Except ReconstructionError (List K) :=
  if M = 0 then
    if N = 0 then
      if A = 0 then
        .error (.ambiguousReconstruction
          "No unique reconstruction possible for quintics with a treefold linear factor.")
      else
        if B = 0 then .ok [1, 0, 0, 0, 0, 1]
        else .ok [0, 1, 0, 0, 1, 0]
    else
      if A = 0 then .ok [1, 0, 0, 0, 1, 0]
      else
        quinticTailAG ctx scaling A B C N R
          (if scaling = "normalized" then scaleAG A R else onesList K)
  else
    if R = 0 then
      if A = 0 then .ok [1, 0, 10, 0, -15, 0]
      else
        quinticTailAB ctx scaling A B M N R
          (if scaling = "normalized" then scaleSqrtA (ctx.sqrtFn A) else onesList K)
    else
      if A = 0 then
        if B = 0 then .ok [1, 0, 0, 1, 0, 0]
        else
          quinticTailAB ctx scaling A B M N R
            (if scaling = "normalized" then scaleRB B R else onesList K)
      else
        quinticTailAB ctx scaling A B M N R
          (if scaling = "normalized" then scaleA9 A R else onesList K)

/-- The body of `binary_quintic_from_invariants` after the optional
`coprime` reduction: unpack `A, B, C = invariants[0:3]` (a list of fewer
than three values makes the unpacking itself raise `ValueError`, with
the Python 2 message "need more than n value(s) to unpack" — the module
is Python 2 code, as its use of `dict.has_key` shows), check
the characteristic, compute `M`, `N`, `R2`, determine the syzygy root
`R` from the number of invariants (rescaling the invariants when `R2` is
not a square, validating the syzygy when `R` is supplied, raising on any
other length), and run the case split. -/
def quinticMain {K : Type} [Field K] [DecidableEq K] (ctx : QuinticCtx K)
    (invariants : List K) (scaling : String) : Except ReconstructionError (List K) :=
  match invariants with
  | A :: B :: C :: rest =>
    if ctx.char = 2 ∨ ctx.char = 3 ∨ ctx.char = 5 then
      .error (.unsupportedDomain
        "No reconstruction of binary quintics implemented for fields of characteristic 2, 3 or 5.")
    else
      let M := clebschM A B C
      let N := clebschN A B C
      let R2 := clebschR2 A B C
      if rest.length = 0 then
        if ctx.isSquareB R2 then quinticCase ctx scaling A B C M N (ctx.sqrtFn R2)
        else
          quinticCase ctx scaling (R2 * A) (R2 ^ 2 * B) (R2 ^ 3 * C)
            (R2 ^ 3 * M) (R2 ^ 4 * N) (R2 ^ 5)
      else if rest.length = 1 then
        if rest.getD 0 0 ^ 2 ≠ R2 then
          .error (.invalidInput
            "Provided invariants do not satisfy the syzygy for Clebsch invariants of a binary quintic.")
        else quinticCase ctx scaling A B C M N (rest.getD 0 0)
      else
        .error (.invalidInput
          "Incorrect number of invariants provided. This method requires 3 or 4 invariants.")
  | _ =>
    .error (.invalidInput
      ("need more than " ++ toString invariants.length ++
        (if invariants.length = 1 then " value" else " values") ++ " to unpack"))

/-- `binary_quintic_from_invariants(invariants, K, invariant_choice,
scaling)`: validate the `invariant_choice` and `scaling` tags, apply the
`coprime` reduction to lists of three or four invariants, and run the
main body. -/
def binary_quintic_from_invariants {K : Type} [Field K] [DecidableEq K]
    (ctx : QuinticCtx K) (invariants : List K)
    (invariant_choice scaling : String) : Except ReconstructionError (List K) :=
  if invariant_choice ∉ ["default", "clebsch"] then
    .error (.invalidInput
      ("Unknown choice of invariants " ++ invariant_choice ++ " for a binary quintic"))
  else if scaling ∉ ["none", "normalized", "coprime"] then
    .error (.invalidInput ("Unknown scaling option " ++ scaling ++ "."))
  else
    match (if scaling = "coprime" then
             (if invariants.length = 3 then ctx.reduceFn invariants [1, 2, 3]
              else if invariants.length = 4 then ctx.reduceFn invariants [2, 4, 6, 9]
              else .ok invariants)
           else .ok invariants) with
    | .error e => .error e
    | .ok invs => quinticMain ctx invs scaling

/-- The rational domain handed to the reconstruction: characteristic
`0`, with the executable square test, square root, rational gcd and
invariant reduction defined above. -/
def ratCtx : QuinticCtx ℚ :=
  { char := 0
    isSquareB := ratIsSquare
    sqrtFn := ratSqrt
    gcdFn := ratGcd
    reduceFn := reduce_invariants }

/-! ### Degree 2 and 3 -/

/-- `binary_quadratic_from_invariants(discriminant, invariant_choice)`:
`(1, 0, 0)` for a vanishing discriminant and `(0, 1, 0)` otherwise. -/
def binary_quadratic_from_invariants (discriminant : ℚ)
    (invariant_choice : String) : Except ReconstructionError (List ℚ) :=
  if invariant_choice ∉ ["default", "discriminant"] then
    .error (.invalidInput
      ("Unknown choice of invariants " ++ invariant_choice ++ " for a binary quadratic."))
  else if discriminant = 0 then .ok [1, 0, 0]
  else .ok [0, 1, 0]

/-- `binary_cubic_from_invariants(discriminant, invariant_choice)`:
`(0, 1, -1, 0)` for a nonzero discriminant; a vanishing discriminant is
ambiguous and raises. -/
def binary_cubic_from_invariants (discriminant : ℚ)
    (invariant_choice : String) : Except ReconstructionError (List ℚ) :=
  if invariant_choice ∉ ["default", "discriminant"] then
    .error (.invalidInput
      ("Unknown choice of invariants " ++ invariant_choice ++ " for a binary cubic"))
  else if discriminant = 0 then
    .error (.ambiguousReconstruction
      "No unique reconstruction possible for binary cubics with a double root.")
  else .ok [0, 1, -1, 0]

/-- Python compares the *list* `invariants` to the integer `0` inside
the degree 2 and 3 branches of the dispatcher (the whole list is passed
as the `discriminant` argument); a Python list never equals `0`. -/
def pyListEqZero (_l : List ℚ) : Bool := false

/-- `binary_form_from_invariants(degree, invariants, ...)` with
`as_form=False`: dispatch on the degree, checking that degree 2 and 3
get exactly one invariant, and reproducing the Python comparison of the
full invariant list with `0` in those branches. -/
def binary_form_from_invariants (degree : ℤ) (invariants : List ℚ)
    (invariant_choice scaling : String) : Except ReconstructionError (List ℚ) :=
  if degree = 2 then
    if invariants.length = 1 then
      if invariant_choice ∉ ["default", "discriminant"] then
        .error (.invalidInput
          ("Unknown choice of invariants " ++ invariant_choice ++ " for a binary quadratic."))
      else if pyListEqZero invariants then .ok [1, 0, 0]
      else .ok [0, 1, 0]
    else
      .error (.invalidInput
        "Incorrect number of invariants provided. Only one invariant should be provided.")
  else if degree = 3 then
    if invariants.length = 1 then
      if invariant_choice ∉ ["default", "discriminant"] then
        .error (.invalidInput
          ("Unknown choice of invariants " ++ invariant_choice ++ " for a binary cubic"))
      else if pyListEqZero invariants then
        .error (.ambiguousReconstruction
          "No unique reconstruction possible for binary cubics with a double root.")
      else .ok [0, 1, -1, 0]
    else
      .error (.invalidInput
        "Incorrect number of invariants provided. Only one invariant should be provided.")
  else if degree = 5 then
    binary_quintic_from_invariants ratCtx invariants invariant_choice scaling
  else
    .error (.unsupportedDegree
      ("No reconstruction for binary forms of " ++ toString degree ++ " implemented."))

/-! ### Checked division

To express that the `normalized` scale factors never divide by zero, we
recompute each scale list with division and inversion operators that
signal a zero denominator instead of returning Lean's junk value `0`. -/

/-- Division returning `none` on a zero denominator. -/
def checkedDiv {K : Type} [Field K] [DecidableEq K] (x y : K) : Option K :=
  if y = 0 then none else some (x / y)

/-- Integer power returning `none` when a negative power would invert `0`. -/
def checkedZpow {K : Type} [Field K] [DecidableEq K] (x : K) (n : ℤ) : Option K :=
  if n < 0 ∧ x = 0 then none else some (x ^ n)

/-- Collect a list of checked values, failing if any entry failed. -/
def optionList {K : Type} : List (Option K) → Option (List K)
  | [] => some []
  | none :: _ => none
  | some x :: l => (optionList l).map (fun r => x :: r)

/-- `scaleAG` with checked divisions: `A**-14 * (R/A**3)**i`. -/
def scaleAGChk {K : Type} [Field K] [DecidableEq K] (A R : K) : Option (List K) :=
  (checkedZpow A (-14)).bind (fun a14 =>
    (checkedDiv R (A ^ 3)).map (fun q => (List.range 6).map (fun i => a14 * q ^ i)))

/-- `scaleSqrtA` with checked divisions: `sqrt(A)**(i-18)`. -/
def scaleSqrtAChk {K : Type} [Field K] [DecidableEq K] (sqrtA : K) : Option (List K) :=
  optionList ((List.range 6).map (fun i => checkedZpow sqrtA ((i : ℤ) - 18)))

/-- `scaleRB` with checked divisions: `R**-2 * (R/B**2)**i`. -/
def scaleRBChk {K : Type} [Field K] [DecidableEq K] (B R : K) : Option (List K) :=
  (checkedZpow R (-2)).bind (fun r2 =>
    (checkedDiv R (B ^ 2)).map (fun q => (List.range 6).map (fun i => r2 * q ^ i)))

/-- `scaleA9` with checked divisions: `A**-9 * (R/A**4)**i`. -/
def scaleA9Chk {K : Type} [Field K] [DecidableEq K] (A R : K) : Option (List K) :=
  (checkedZpow A (-9)).bind (fun a9 =>
    (checkedDiv R (A ^ 4)).map (fun q => (List.range 6).map (fun i => a9 * q ^ i)))

/-! ### The field with five elements

`GF(5)` is used to observe the order in which
`binary_quintic_from_invariants` performs its checks: the characteristic
test happens before the invariant count is examined. -/

instance : Fact (Nat.Prime 5) := ⟨by norm_num⟩

/-- The domain `GF(5)` handed to the reconstruction: characteristic `5`,
the square test and square root by exhaustive search, the gcd of a list
of field elements (`1` unless all entries vanish), and the reduction of
invariants over a finite field (all nonzero elements are units, so the
list is returned unchanged; a zero entry makes `factor` raise). -/
def zmod5Ctx : QuinticCtx (ZMod 5) :=
  { char := 5
    isSquareB := fun x => decide (∃ y : ZMod 5, y * y = x)
    sqrtFn := fun x =>
      ((((List.range 5).map (fun n => (n : ZMod 5))).find? (fun y => y * y = x)).getD 0)
    gcdFn := fun l => if l.all (fun x => x = 0) then 0 else 1
    reduceFn := fun l _ =>
      if (0 : ZMod 5) ∈ l then .error (.arithmeticError "factorization of 0 is not defined")
      else .ok l }

deriving instance DecidableEq for Except

/-! ### Small evaluation lemmas -/

theorem ratCtx_char : ratCtx.char = 0 := rfl

theorem ratCtx_isSquareB : ratCtx.isSquareB = ratIsSquare := rfl

theorem ratCtx_sqrtFn : ratCtx.sqrtFn = ratSqrt := rfl

theorem ratCtx_gcdFn : ratCtx.gcdFn = ratGcd := rfl

theorem ratCtx_reduceFn : ratCtx.reduceFn = reduce_invariants := rfl

theorem ratIsSquare_neg75o8 : ratIsSquare (-(75 / 8)) = false := by
  with_unfolding_all decide

/-! ### Valuation toolkit

The executable multiplicity `multRat` agrees with Mathlib's
`padicValRat`, and the rational gcd of a list has, at every prime, the
minimum of the valuations of its entries.  These facts drive the
idempotence of `reduce_invariants` and the coprimality of the `coprime`
scaling. -/

theorem multFuel_spec {p : ℕ} (hp : 2 ≤ p) :
    ∀ (fuel n : ℕ), n ≠ 0 → n ≤ fuel →
      p ^ multFuel p fuel n ∣ n ∧ ¬ p ^ (multFuel p fuel n + 1) ∣ n
  | 0, n, hn, hle => absurd (Nat.le_zero.1 hle) hn
  | fuel + 1, n, hn, hle => by
    rw [multFuel]
    by_cases hd : p ∣ n
    · rw [if_pos ⟨hp, hn, hd⟩]
      have hp0 : 0 < p := by omega
      have hnp : n / p ≠ 0 := by
        rcases hd with ⟨k, rfl⟩
        rw [Nat.mul_div_cancel_left _ hp0]
        rintro rfl
        exact hn (mul_zero p)
      have hlt : n / p < n := Nat.div_lt_self (Nat.pos_of_ne_zero hn) (by omega)
      obtain ⟨h1, h2⟩ := multFuel_spec hp fuel (n / p) hnp (by omega)
      constructor
      · rw [pow_succ']
        have h := mul_dvd_mul_left p h1
        rwa [Nat.mul_div_cancel' hd] at h
      · intro hcon
        apply h2
        rw [Nat.dvd_div_iff_mul_dvd hd, ← pow_succ']
        exact hcon
    · rw [if_neg (fun h => hd h.2.2)]
      refine ⟨one_dvd n, ?_⟩
      rw [pow_one]
      exact hd

theorem multNat_spec {p n : ℕ} (hp : 2 ≤ p) (hn : n ≠ 0) :
    p ^ multNat p n ∣ n ∧ ¬ p ^ (multNat p n + 1) ∣ n :=
  multFuel_spec hp n n hn le_rfl

theorem multNat_eq_padicValNat {p n : ℕ} (hp : p.Prime) (hn : n ≠ 0) :
    multNat p n = padicValNat p n := by
  haveI : Fact p.Prime := ⟨hp⟩
  obtain ⟨h1, h2⟩ := multNat_spec hp.two_le hn
  have hd := pow_padicValNat_dvd (p := p) (n := n)
  have hnd := pow_succ_padicValNat_not_dvd (p := p) hn
  by_contra hne
  rcases Nat.lt_or_ge (multNat p n) (padicValNat p n) with h | h
  · exact h2 (dvd_trans (pow_dvd_pow p h) hd)
  · have hlt : padicValNat p n < multNat p n := lt_of_le_of_ne h (Ne.symm hne)
    exact hnd (dvd_trans (pow_dvd_pow p hlt) h1)

theorem multNat_pos_iff {p n : ℕ} (hp : p.Prime) (hn : n ≠ 0) :
    0 < multNat p n ↔ p ∣ n := by
  obtain ⟨h1, h2⟩ := multNat_spec hp.two_le hn
  constructor
  · intro h
    exact dvd_trans (dvd_pow_self p (Nat.pos_iff_ne_zero.1 h)) h1
  · intro hd
    rcases Nat.eq_zero_or_pos (multNat p n) with h0 | h0
    · rw [h0, zero_add, pow_one] at h2
      exact absurd hd h2
    · exact h0

theorem multNat_zero_right (p : ℕ) : multNat p 0 = 0 := by
  rw [multNat, multFuel]

theorem multRat_eq_padicValRat {p : ℕ} {q : ℚ} (hp : p.Prime) (hq : q ≠ 0) :
    multRat p q = padicValRat p q := by
  rw [multRat, padicValRat, padicValInt,
    multNat_eq_padicValNat hp (Int.natAbs_ne_zero.2 (Rat.num_ne_zero.2 hq)),
    multNat_eq_padicValNat hp q.den_nz]

theorem multRat_num_den {p : ℕ} (hp : p.Prime) (q : ℚ) :
    multNat p q.num.natAbs = 0 ∨ multNat p q.den = 0 := by
  by_contra hc
  push_neg at hc
  obtain ⟨h1, h2⟩ := hc
  have hn0 : q.num.natAbs ≠ 0 := by
    intro h
    rw [h, multNat_zero_right] at h1
    exact h1 rfl
  have d1 : p ∣ q.num.natAbs := (multNat_pos_iff hp hn0).1 (Nat.pos_of_ne_zero h1)
  have d2 : p ∣ q.den := (multNat_pos_iff hp q.den_nz).1 (Nat.pos_of_ne_zero h2)
  have hg := Nat.dvd_gcd d1 d2
  rw [Nat.Coprime.gcd_eq_one q.reduced] at hg
  exact hp.one_lt.ne' (Nat.dvd_one.1 hg)

theorem padicValNat_num_eq_max {p : ℕ} {q : ℚ} (hp : p.Prime) (hq : q ≠ 0) :
    (padicValNat p q.num.natAbs : ℤ) = max (multRat p q) 0 := by
  rw [← multNat_eq_padicValNat hp (Int.natAbs_ne_zero.2 (Rat.num_ne_zero.2 hq)), multRat]
  rcases multRat_num_den hp q with h | h
  · rw [h]
    have : (multNat p q.den : ℤ) ≥ 0 := Int.natCast_nonneg _
    rw [max_eq_right (by omega)]
    omega
  · rw [h]
    rw [max_eq_left (by omega)]
    omega

theorem padicValNat_den_eq_max {p : ℕ} {q : ℚ} (hp : p.Prime) :
    (padicValNat p q.den : ℤ) = max (-(multRat p q)) 0 := by
  rw [← multNat_eq_padicValNat hp q.den_nz, multRat]
  rcases multRat_num_den hp q with h | h
  · rw [h]
    rw [max_eq_left (by omega)]
    omega
  · rw [h]
    have : (multNat p q.num.natAbs : ℤ) ≥ 0 := Int.natCast_nonneg _
    rw [max_eq_right (by omega)]
    omega

theorem dvd_num_iff_multRat_pos {p : ℕ} {q : ℚ} (hp : p.Prime) (hq : q ≠ 0) :
    p ∣ q.num.natAbs ↔ 0 < multRat p q := by
  have hn0 : q.num.natAbs ≠ 0 := Int.natAbs_ne_zero.2 (Rat.num_ne_zero.2 hq)
  rw [multRat]
  constructor
  · intro hd
    have h1 : 0 < multNat p q.num.natAbs := (multNat_pos_iff hp hn0).2 hd
    rcases multRat_num_den hp q with h | h
    · rw [h] at h1
      omega
    · rw [h]
      omega
  · intro hlt
    have h1 : 0 < multNat p q.num.natAbs := by omega
    exact (multNat_pos_iff hp hn0).1 h1

theorem dvd_den_iff_multRat_neg {p : ℕ} {q : ℚ} (hp : p.Prime) :
    p ∣ q.den ↔ multRat p q < 0 := by
  rw [multRat]
  constructor
  · intro hd
    have h1 : 0 < multNat p q.den := (multNat_pos_iff hp q.den_nz).2 hd
    rcases multRat_num_den hp q with h | h
    · rw [h]
      omega
    · rw [h] at h1
      omega
  · intro hlt
    have h1 : 0 < multNat p q.den := by omega
    exact (multNat_pos_iff hp q.den_nz).1 h1

theorem listMinInt_le {l : List ℤ} {x : ℤ} (hx : x ∈ l) : listMinInt l ≤ x := by
  induction l with
  | nil => cases hx
  | cons a t ih =>
    rcases t with _ | ⟨b, t'⟩
    · rw [List.mem_singleton] at hx
      subst hx
      exact le_refl _
    · rw [listMinInt]
      rcases List.mem_cons.1 hx with rfl | hx'
      · exact min_le_left _ _
      · exact le_trans (min_le_right _ _) (ih hx')

theorem listMinInt_mem {l : List ℤ} (hl : l ≠ []) : listMinInt l ∈ l := by
  induction l with
  | nil => exact absurd rfl hl
  | cons a t ih =>
    rcases t with _ | ⟨b, t'⟩
    · simp [listMinInt]
    · rw [listMinInt]
      rcases le_total a (listMinInt (b :: t')) with h | h
      · simp [min_eq_left h]
      · rw [min_eq_right h]
        exact List.mem_cons_of_mem _ (ih (by simp))

theorem listMinInt_map_sub (c : ℤ) :
    ∀ l : List ℤ, l ≠ [] → listMinInt (l.map (fun x => x - c)) = listMinInt l - c
  | [], h => absurd rfl h
  | [a], _ => rfl
  | a :: b :: t, _ => by
    have ih := listMinInt_map_sub c (b :: t) (by simp)
    simp only [List.map_cons] at ih ⊢
    rw [listMinInt, listMinInt, ih, min_sub_sub_right]

theorem listMinInt_map_max_zero :
    ∀ l : List ℤ, l ≠ [] →
      listMinInt (l.map (fun x => max x 0)) = max (listMinInt l) 0
  | [], h => absurd rfl h
  | [a], _ => rfl
  | a :: b :: t, _ => by
    have ih := listMinInt_map_max_zero (b :: t) (by simp)
    simp only [List.map_cons] at ih ⊢
    rw [listMinInt, listMinInt, ih, ← max_min_distrib_right]

theorem listMaxInt_map_max_zero :
    ∀ l : List ℤ, l ≠ [] →
      listMaxInt (l.map (fun x => max x 0)) = max (listMaxInt l) 0
  | [], h => absurd rfl h
  | [a], _ => by
    rw [List.map_cons, List.map_nil, listMaxInt, listMaxInt]
  | a :: b :: t, _ => by
    have ih := listMaxInt_map_max_zero (b :: t) (by simp)
    simp only [List.map_cons] at ih ⊢
    rw [listMaxInt, listMaxInt, ih, max_assoc, max_comm 0 (max _ 0), max_assoc, max_self,
      ← max_assoc]

theorem listMaxInt_map_neg :
    ∀ l : List ℤ, l ≠ [] → listMaxInt (l.map (fun x => -x)) = -(listMinInt l)
  | [], h => absurd rfl h
  | [a], _ => rfl
  | a :: b :: t, _ => by
    have ih := listMaxInt_map_neg (b :: t) (by simp)
    simp only [List.map_cons] at ih ⊢
    rw [listMaxInt, listMinInt, ih, max_neg_neg]

theorem ratGcdNum_ne_zero {l : List ℚ} (hl : l ≠ []) (h0 : (0 : ℚ) ∉ l) :
    ratGcdNum l ≠ 0 := by
  rcases l with _ | ⟨q, t⟩
  · exact absurd rfl hl
  · have hq : q ≠ 0 := fun h => h0 (h ▸ List.mem_cons_self q t)
    intro hg
    rw [show ratGcdNum (q :: t) = Nat.gcd q.num.natAbs (ratGcdNum t) from rfl,
      Nat.gcd_eq_zero_iff] at hg
    exact Rat.num_ne_zero.2 hq (Int.natAbs_eq_zero.1 hg.1)

theorem ratGcdDen_ne_zero : ∀ l : List ℚ, ratGcdDen l ≠ 0
  | [] => one_ne_zero
  | q :: t => by
    rw [show ratGcdDen (q :: t) = Nat.lcm q.den (ratGcdDen t) from rfl]
    exact Nat.lcm_ne_zero q.den_nz (ratGcdDen_ne_zero t)

theorem padicValNat_gcd {p a b : ℕ} (hp : p.Prime) (ha : a ≠ 0) (hb : b ≠ 0) :
    padicValNat p (Nat.gcd a b) = min (padicValNat p a) (padicValNat p b) := by
  rw [← Nat.factorization_def _ hp, ← Nat.factorization_def _ hp,
    ← Nat.factorization_def _ hp, Nat.factorization_gcd ha hb, Finsupp.inf_apply,
    inf_eq_min]

theorem padicValNat_lcm {p a b : ℕ} (hp : p.Prime) (ha : a ≠ 0) (hb : b ≠ 0) :
    padicValNat p (Nat.lcm a b) = max (padicValNat p a) (padicValNat p b) := by
  rw [← Nat.factorization_def _ hp, ← Nat.factorization_def _ hp,
    ← Nat.factorization_def _ hp, Nat.factorization_lcm ha hb, Finsupp.sup_apply,
    sup_eq_max]

theorem padicValNat_ratGcdNum {p : ℕ} (hp : p.Prime) :
    ∀ l : List ℚ, l ≠ [] → (0 : ℚ) ∉ l →
      (padicValNat p (ratGcdNum l) : ℤ) =
        listMinInt (l.map (fun q => (padicValNat p q.num.natAbs : ℤ)))
  | [], h, _ => absurd rfl h
  | [q], _, _ => by
    rw [show ratGcdNum [q] = Nat.gcd q.num.natAbs 0 from rfl, Nat.gcd_zero_right]
    rfl
  | q :: q' :: t, _, h0 => by
    have h0' : (0 : ℚ) ∉ q' :: t := fun h => h0 (List.mem_cons_of_mem _ h)
    have hq : q ≠ 0 := fun h => h0 (h ▸ List.mem_cons_self q _)
    have hnum : q.num.natAbs ≠ 0 := Int.natAbs_ne_zero.2 (Rat.num_ne_zero.2 hq)
    have hrest : ratGcdNum (q' :: t) ≠ 0 := ratGcdNum_ne_zero (by simp) h0'
    have ih := padicValNat_ratGcdNum hp (q' :: t) (by simp) h0'
    rw [show ratGcdNum (q :: q' :: t) = Nat.gcd q.num.natAbs (ratGcdNum (q' :: t)) from rfl,
      padicValNat_gcd hp hnum hrest, Nat.cast_min, ih]
    rfl

theorem padicValNat_ratGcdDen {p : ℕ} (hp : p.Prime) :
    ∀ l : List ℚ,
      (padicValNat p (ratGcdDen l) : ℤ) =
        listMaxInt (l.map (fun q => (padicValNat p q.den : ℤ)))
  | [] => by
    rw [show ratGcdDen [] = 1 from rfl]
    simp [listMaxInt]
  | [q] => by
    rw [show ratGcdDen [q] = Nat.lcm q.den 1 from rfl, Nat.lcm_one_right]
    rfl
  | q :: q' :: t => by
    have hrest : ratGcdDen (q' :: t) ≠ 0 := ratGcdDen_ne_zero _
    have ih := padicValNat_ratGcdDen hp (q' :: t)
    rw [show ratGcdDen (q :: q' :: t) = Nat.lcm q.den (ratGcdDen (q' :: t)) from rfl,
      padicValNat_lcm hp q.den_nz hrest, Nat.cast_max, ih]
    rfl

theorem padicValRat_ratGcd {p : ℕ} (hp : p.Prime) {l : List ℚ} (hl : l ≠ [])
    (h0 : (0 : ℚ) ∉ l) :
    padicValRat p (ratGcd l) = listMinInt (l.map (multRat p)) := by
  haveI : Fact p.Prime := ⟨hp⟩
  have hmapne : l.map (multRat p) ≠ [] := by
    intro h
    exact hl (List.map_eq_nil_iff.1 h)
  have hnum : ((ratGcdNum l : ℚ)) ≠ 0 := Nat.cast_ne_zero.2 (ratGcdNum_ne_zero hl h0)
  have hden : ((ratGcdDen l : ℚ)) ≠ 0 := Nat.cast_ne_zero.2 (ratGcdDen_ne_zero l)
  have e1 : l.map (fun q => (padicValNat p q.num.natAbs : ℤ)) =
      (l.map (multRat p)).map (fun x => max x 0) := by
    rw [List.map_map]
    refine List.map_congr_left (fun q hq => ?_)
    exact padicValNat_num_eq_max hp (fun h => h0 (h ▸ hq))
  have e2 : l.map (fun q => (padicValNat p q.den : ℤ)) =
      ((l.map (multRat p)).map (fun x => -x)).map (fun x => max x 0) := by
    rw [List.map_map, List.map_map]
    refine List.map_congr_left (fun q hq => ?_)
    exact padicValNat_den_eq_max hp
  rw [ratGcd, padicValRat.div hnum hden, padicValRat.of_nat, padicValRat.of_nat,
    padicValNat_ratGcdNum hp l hl h0, padicValNat_ratGcdDen hp l, e1, e2,
    listMinInt_map_max_zero _ hmapne,
    listMaxInt_map_max_zero _ (by simpa using hmapne),
    listMaxInt_map_neg _ hmapne, ← Int.toNat_eq_max, ← Int.toNat_eq_max,
    Int.toNat_sub_toNat_neg]

theorem natPrimesOf_mem {p n : ℕ} (hn : n ≠ 0) :
    p ∈ natPrimesOf n ↔ p.Prime ∧ p ∣ n := by
  rw [natPrimesOf, Finset.mem_filter, Finset.mem_range]
  constructor
  · rintro ⟨_, h⟩
    exact h
  · rintro ⟨hp, hd⟩
    exact ⟨Nat.lt_succ_of_le (Nat.le_of_dvd (Nat.pos_of_ne_zero hn) hd), hp, hd⟩

theorem dvd_ratGcdNum_iff {p : ℕ} :
    ∀ l : List ℚ, p ∣ ratGcdNum l ↔ ∀ q ∈ l, p ∣ q.num.natAbs
  | [] => by simp [ratGcdNum]
  | q :: t => by
    rw [show ratGcdNum (q :: t) = Nat.gcd q.num.natAbs (ratGcdNum t) from rfl]
    constructor
    · intro h x hx
      rcases List.mem_cons.1 hx with rfl | hx'
      · exact dvd_trans h (Nat.gcd_dvd_left _ _)
      · exact (dvd_ratGcdNum_iff t).1 (dvd_trans h (Nat.gcd_dvd_right _ _)) x hx'
    · intro h
      exact Nat.dvd_gcd (h q (List.mem_cons_self _ _))
        ((dvd_ratGcdNum_iff t).2 (fun x hx => h x (List.mem_cons_of_mem _ hx)))

theorem prime_dvd_ratGcdDen_iff {p : ℕ} (hp : p.Prime) :
    ∀ l : List ℚ, p ∣ ratGcdDen l ↔ ∃ q ∈ l, p ∣ q.den
  | [] => by
    rw [show ratGcdDen [] = 1 from rfl, Nat.dvd_one]
    simp [hp.ne_one]
  | q :: t => by
    rw [show ratGcdDen (q :: t) = Nat.lcm q.den (ratGcdDen t) from rfl]
    constructor
    · intro h
      rcases (Nat.Prime.dvd_mul hp).1 (dvd_trans h (Nat.lcm_dvd_mul _ _)) with h' | h'
      · exact ⟨q, List.mem_cons_self _ _, h'⟩
      · obtain ⟨x, hx, hd⟩ := (prime_dvd_ratGcdDen_iff hp t).1 h'
        exact ⟨x, List.mem_cons_of_mem _ hx, hd⟩
    · rintro ⟨x, hx, hd⟩
      rcases List.mem_cons.1 hx with rfl | hx'
      · exact dvd_trans hd (Nat.dvd_lcm_left _ _)
      · exact dvd_trans ((prime_dvd_ratGcdDen_iff hp t).2 ⟨x, hx', hd⟩)
          (Nat.dvd_lcm_right _ _)

theorem mem_gcdPrimes_iff {p : ℕ} {l : List ℚ} (hl : l ≠ []) (h0 : (0 : ℚ) ∉ l) :
    p ∈ gcdPrimes l ↔ p.Prime ∧ listMinInt (l.map (multRat p)) ≠ 0 := by
  have hne0 : ∀ q ∈ l, q ≠ 0 := fun q hq h => h0 (h ▸ hq)
  have hmapne : l.map (multRat p) ≠ [] := fun h => hl (List.map_eq_nil_iff.1 h)
  rw [gcdPrimes, Finset.mem_union, natPrimesOf_mem (ratGcdNum_ne_zero hl h0),
    natPrimesOf_mem (ratGcdDen_ne_zero l)]
  constructor
  · rintro (⟨hp, hd⟩ | ⟨hp, hd⟩)
    · refine ⟨hp, ?_⟩
      obtain ⟨q, hq, he⟩ := List.mem_map.1 (listMinInt_mem hmapne)
      have := (dvd_num_iff_multRat_pos hp (hne0 q hq)).1
        ((dvd_ratGcdNum_iff l).1 hd q hq)
      omega
    · refine ⟨hp, ?_⟩
      obtain ⟨x, hx, hd'⟩ := (prime_dvd_ratGcdDen_iff hp l).1 hd
      have hxneg := (dvd_den_iff_multRat_neg hp).1 hd'
      have := listMinInt_le (List.mem_map_of_mem (multRat p) hx)
      omega
  · rintro ⟨hp, hne⟩
    rcases lt_or_gt_of_ne hne with hlt | hgt
    · right
      refine ⟨hp, (prime_dvd_ratGcdDen_iff hp l).2 ?_⟩
      obtain ⟨q, hq, he⟩ := List.mem_map.1 (listMinInt_mem hmapne)
      exact ⟨q, hq, (dvd_den_iff_multRat_neg hp).2 (by omega)⟩
    · left
      refine ⟨hp, (dvd_ratGcdNum_iff l).2 (fun q hq => ?_)⟩
      have := listMinInt_le (List.mem_map_of_mem (multRat p) hq)
      exact (dvd_num_iff_multRat_pos hp (hne0 q hq)).2 (by omega)

theorem mem_gcdPrimes_prime {l : List ℚ} {p : ℕ} (hp : p ∈ gcdPrimes l) : p.Prime := by
  rcases Finset.mem_union.1 hp with h | h <;> exact (Finset.mem_filter.1 h).2.1

theorem padicValRat_prime_prime {p q : ℕ} (hp : p.Prime) (hq : q.Prime) :
    padicValRat p (q : ℚ) = if p = q then 1 else 0 := by
  haveI : Fact p.Prime := ⟨hp⟩
  rw [padicValRat.of_nat]
  split_ifs with h
  · subst h
    rw [padicValNat_self]
    rfl
  · rw [padicValNat.eq_zero_of_not_dvd
      (fun hd => h ((Nat.prime_dvd_prime_iff_eq hp hq).1 hd))]
    rfl

theorem padicValRat_zpow {p : ℕ} [Fact p.Prime] {q : ℚ} (hq : q ≠ 0) (n : ℤ) :
    padicValRat p (q ^ n) = n * padicValRat p q := by
  cases n with
  | ofNat k =>
    rw [Int.ofNat_eq_coe, zpow_natCast, padicValRat.pow hq]
  | negSucc k =>
    rw [zpow_negSucc, padicValRat.inv, padicValRat.pow hq, Int.negSucc_eq]
    push_cast
    ring

theorem padicValRat_finset_prod {p : ℕ} [Fact p.Prime] (s : Finset ℕ) (f : ℕ → ℚ)
    (hf : ∀ i ∈ s, f i ≠ 0) :
    padicValRat p (s.prod f) = s.sum (fun i => padicValRat p (f i)) := by
  classical
  induction s using Finset.induction_on with
  | empty => simp
  | insert hni ih =>
    rename_i a s
    rw [Finset.prod_insert hni, Finset.sum_insert hni,
      padicValRat.mul (hf a (Finset.mem_insert_self a s))
        (Finset.prod_ne_zero_iff.2 (fun i hi => hf i (Finset.mem_insert_of_mem hi))),
      ih (fun i hi => hf i (Finset.mem_insert_of_mem hi))]

theorem padicValRat_reduceScalar {p : ℕ} (hp : p.Prime) (l : List ℚ) (w : List ℤ) :
    padicValRat p (reduceScalar l w) =
      if p ∈ gcdPrimes l then reduceExp l w p else 0 := by
  haveI : Fact p.Prime := ⟨hp⟩
  rw [reduceScalar, padicValRat_finset_prod _ _
    (fun i hi => zpow_ne_zero _ (Nat.cast_ne_zero.2 (mem_gcdPrimes_prime hi).ne_zero))]
  have hcongr : ∀ i ∈ gcdPrimes l,
      padicValRat p ((i : ℚ) ^ reduceExp l w i) =
        (if p = i then reduceExp l w i else 0) := by
    intro i hi
    rw [padicValRat_zpow (Nat.cast_ne_zero.2 (mem_gcdPrimes_prime hi).ne_zero),
      padicValRat_prime_prime hp (mem_gcdPrimes_prime hi)]
    split_ifs <;> ring
  rw [Finset.sum_congr rfl hcongr, Finset.sum_ite_eq (gcdPrimes l) p
    (fun i => reduceExp l w i)]

theorem map_range_getD {α β : Type} (f : α → β) (d : α) :
    ∀ l : List α, (List.range l.length).map (fun i => f (l.getD i d)) = l.map f
  | [] => rfl
  | a :: t => by
    rw [List.length_cons, List.range_succ_eq_map, List.map_cons, List.map_map,
      List.map_cons]
    congr 1
    exact map_range_getD f d t

theorem getD_map_range {α : Type} (n : ℕ) (f : ℕ → α) (d : α) {i : ℕ} (hi : i < n) :
    ((List.range n).map f).getD i d = f i := by
  rw [List.getD_eq_getElem?_getD, List.getElem?_map, List.getElem?_range hi]
  rfl

theorem getD_mem {α : Type} {l : List α} {i : ℕ} (hi : i < l.length) (d : α) :
    l.getD i d ∈ l := by
  rw [List.getD_eq_getElem?_getD, List.getElem?_eq_getElem hi]
  exact List.getElem_mem hi

theorem listMinInt_map_sub_range (n : ℕ) (hn : n ≠ 0) (g : ℕ → ℤ) (v : ℤ) :
    listMinInt ((List.range n).map (fun i => g i - v)) =
      listMinInt ((List.range n).map g) - v := by
  have hne : (List.range n).map g ≠ [] := by
    simp [List.range_eq_nil, hn]
  have h := listMinInt_map_sub v ((List.range n).map g) hne
  rw [List.map_map] at h
  simpa [Function.comp] using h

theorem multRat_mul_zpow {p : ℕ} (hp : p.Prime) {x S : ℚ} (hx : x ≠ 0) (hS : S ≠ 0)
    (t : ℤ) :
    multRat p (x * S ^ t) = multRat p x + t * padicValRat p S := by
  haveI : Fact p.Prime := ⟨hp⟩
  rw [multRat_eq_padicValRat hp (mul_ne_zero hx (zpow_ne_zero _ hS)),
    padicValRat.mul hx (zpow_ne_zero _ hS), padicValRat_zpow hS,
    multRat_eq_padicValRat hp hx]

theorem reduce_invariants_ok {l : List ℚ} (w : List ℤ) (hl : l ≠ []) (h0 : (0 : ℚ) ∉ l) :
    reduce_invariants l w = .ok ((List.range w.length).map
      (fun i => l.getD i 0 * reduceScalar l w ^ (-(w.getD i 0)))) := by
  rw [reduce_invariants, if_neg]
  push_neg
  exact ⟨hl, h0⟩

theorem reduceScalar_ne_zero (l : List ℚ) (w : List ℤ) : reduceScalar l w ≠ 0 := by
  rw [reduceScalar]
  refine Finset.prod_ne_zero_iff.2 (fun p hp => ?_)
  exact zpow_ne_zero _ (Nat.cast_ne_zero.2 (mem_gcdPrimes_prime hp).ne_zero)

/-- The case split never raises the syzygy (or any other)
`InvalidInput` error: its failures are the ambiguous threefold factor
and the division by a zero gcd. -/
theorem quinticCase_ne_invalidInput {K : Type} [Field K] [DecidableEq K]
    (ctx : QuinticCtx K) (scaling : String) (A B C M N R : K) (msg : String) :
    quinticCase ctx scaling A B C M N R ≠ .error (.invalidInput msg) := by
  rw [quinticCase]
  split_ifs <;>
    first
      | (simp only [quinticTailAG, quinticTailAB, quinticCommon, quinticFinish]
         split_ifs <;> simp)
      | simp

/-- Reaching the main body: with recognized tags and a scaling other
than `coprime`, no invariant reduction happens. -/
theorem quintic_reaches_main {K : Type} [Field K] [DecidableEq K] (ctx : QuinticCtx K)
    (invariants : List K) (choice scaling : String)
    (hc : choice ∈ ["default", "clebsch"]) (hs : scaling ∈ ["none", "normalized"]) :
    binary_quintic_from_invariants ctx invariants choice scaling =
      quinticMain ctx invariants scaling := by
  have hs3 : scaling ∈ ["none", "normalized", "coprime"] := by
    simp only [List.mem_cons, List.not_mem_nil, or_false] at hs ⊢
    tauto
  have hncop : ¬ scaling = "coprime" := by
    simp only [List.mem_cons, List.not_mem_nil, or_false] at hs
    rcases hs with h | h <;> subst h <;> decide
  rw [binary_quintic_from_invariants, if_neg (not_not_intro hc),
    if_neg (not_not_intro hs3), if_neg hncop]

/-- Evaluation of the main body on a list of four invariants: the
syzygy check, then the case split with the supplied root. -/
theorem quinticMain_four (A B C R : ℚ) (scaling : String) :
    quinticMain ratCtx [A, B, C, R] scaling =
      if R ^ 2 ≠ clebschR2 A B C then
        .error (.invalidInput
          "Provided invariants do not satisfy the syzygy for Clebsch invariants of a binary quintic.")
      else quinticCase ratCtx scaling A B C (clebschM A B C) (clebschN A B C) R := by
  simp only [quinticMain]
  norm_num [ratCtx_char]

/-- Evaluation of `reduce_invariants` on four nonzero rationals. -/
theorem reduce_invariants_four {A B C R : ℚ} (hA : A ≠ 0) (hB : B ≠ 0)
    (hC : C ≠ 0) (hR : R ≠ 0) :
    reduce_invariants [A, B, C, R] [2, 4, 6, 9] =
      .ok [A * reduceScalar [A, B, C, R] [2, 4, 6, 9] ^ (-(2 : ℤ)),
        B * reduceScalar [A, B, C, R] [2, 4, 6, 9] ^ (-(4 : ℤ)),
        C * reduceScalar [A, B, C, R] [2, 4, 6, 9] ^ (-(6 : ℤ)),
        R * reduceScalar [A, B, C, R] [2, 4, 6, 9] ^ (-(9 : ℤ))] := by
  rw [reduce_invariants, if_neg]
  · rfl
  · simp [Ne.symm hA, Ne.symm hB, Ne.symm hC, Ne.symm hR]

/-- The Clebsch syzygy is invariant under the weighted rescaling used by
the `coprime` reduction with weights `[2, 4, 6, 9]`. -/
theorem clebschR2_scaling (A B C R s : ℚ) (hs : s ≠ 0) :
    ((R * s ^ (-(9 : ℤ))) ^ 2 =
        clebschR2 (A * s ^ (-(2 : ℤ))) (B * s ^ (-(4 : ℤ))) (C * s ^ (-(6 : ℤ))) ↔
      R ^ 2 = clebschR2 A B C) := by
  have hinv : s⁻¹ ≠ 0 := inv_ne_zero hs
  have e : ∀ n : ℕ, s ^ (-(n : ℤ)) = s⁻¹ ^ n := by
    intro n
    rw [zpow_neg, ← inv_zpow, zpow_natCast]
  have e2 := e 2
  have e4 := e 4
  have e6 := e 6
  have e9 := e 9
  simp only [Nat.cast_ofNat] at e2 e4 e6 e9
  rw [e2, e4, e6, e9]
  have h18 : clebschR2 (A * s⁻¹ ^ 2) (B * s⁻¹ ^ 4) (C * s⁻¹ ^ 6) =
      s⁻¹ ^ 18 * clebschR2 A B C := by
    simp only [clebschR2, clebschM, clebschN]
    ring
  have h9 : (R * s⁻¹ ^ 9) ^ 2 = s⁻¹ ^ 18 * R ^ 2 := by ring
  rw [h18, h9]
  exact mul_right_inj' (pow_ne_zero 18 hinv)

theorem ratGcdNum_filter :
    ∀ l : List ℚ, ratGcdNum (l.filter (fun q => q ≠ 0)) = ratGcdNum l
  | [] => rfl
  | q :: t => by
    by_cases hq : q = 0
    · subst hq
      rw [List.filter_cons_of_neg (by simp), ratGcdNum_filter t,
        show ratGcdNum ((0 : ℚ) :: t) = Nat.gcd (0 : ℚ).num.natAbs (ratGcdNum t) from rfl]
      simp
    · rw [List.filter_cons_of_pos (by simpa using hq),
        show ∀ t' : List ℚ, ratGcdNum (q :: t') = Nat.gcd q.num.natAbs (ratGcdNum t')
          from fun _ => rfl,
        ratGcdNum_filter t]
      rfl

theorem ratGcdDen_filter :
    ∀ l : List ℚ, ratGcdDen (l.filter (fun q => q ≠ 0)) = ratGcdDen l
  | [] => rfl
  | q :: t => by
    by_cases hq : q = 0
    · subst hq
      rw [List.filter_cons_of_neg (by simp), ratGcdDen_filter t,
        show ratGcdDen ((0 : ℚ) :: t) = Nat.lcm (0 : ℚ).den (ratGcdDen t) from rfl]
      simp
    · rw [List.filter_cons_of_pos (by simpa using hq),
        show ∀ t' : List ℚ, ratGcdDen (q :: t') = Nat.lcm q.den (ratGcdDen t')
          from fun _ => rfl,
        ratGcdDen_filter t]
      rfl

theorem ratGcd_filter (l : List ℚ) : ratGcd (l.filter (fun q => q ≠ 0)) = ratGcd l := by
  rw [ratGcd, ratGcd, ratGcdNum_filter, ratGcdDen_filter]

theorem ratGcd_nonneg (l : List ℚ) : 0 ≤ ratGcd l :=
  div_nonneg (Nat.cast_nonneg _) (Nat.cast_nonneg _)

theorem ratGcd_ne_zero {l : List ℚ} (hl : l ≠ []) (h0 : (0 : ℚ) ∉ l) : ratGcd l ≠ 0 :=
  div_ne_zero (Nat.cast_ne_zero.2 (ratGcdNum_ne_zero hl h0))
    (Nat.cast_ne_zero.2 (ratGcdDen_ne_zero l))

theorem multRat_div {p : ℕ} (hp : p.Prime) {x g : ℚ} (hx : x ≠ 0) (hg : g ≠ 0) :
    multRat p (x / g) = multRat p x - padicValRat p g := by
  haveI : Fact p.Prime := ⟨hp⟩
  rw [multRat_eq_padicValRat hp (div_ne_zero hx hg), padicValRat.div hx hg,
    multRat_eq_padicValRat hp hx]

theorem rat_eq_one_of_vals_zero {r : ℚ} (hr0 : 0 < r)
    (hv : ∀ p : ℕ, p.Prime → padicValRat p r = 0) : r = 1 := by
  have hrne : r ≠ 0 := ne_of_gt hr0
  have hnum : r.num.natAbs ≠ 0 := Int.natAbs_ne_zero.2 (Rat.num_ne_zero.2 hrne)
  have hnodvd : ∀ p : ℕ, p.Prime → ¬p ∣ r.num.natAbs ∧ ¬p ∣ r.den := by
    intro p hp
    have h := hv p hp
    rw [← multRat_eq_padicValRat hp hrne, multRat] at h
    have hboth : multNat p r.num.natAbs = 0 ∧ multNat p r.den = 0 := by
      rcases multRat_num_den hp r with h1 | h1 <;> omega
    constructor
    · intro hd
      have := (multNat_pos_iff hp hnum).2 hd
      omega
    · intro hd
      have := (multNat_pos_iff hp r.den_nz).2 hd
      omega
  have h1 : r.num.natAbs = 1 := by
    by_contra hne1
    obtain ⟨p, hp, hd⟩ := Nat.exists_prime_and_dvd hne1
    exact (hnodvd p hp).1 hd
  have h2 : r.den = 1 := by
    by_contra hne1
    obtain ⟨p, hp, hd⟩ := Nat.exists_prime_and_dvd hne1
    exact (hnodvd p hp).2 hd
  have hpos : 0 < r.num := Rat.num_pos.2 hr0
  have h3 : r.num = 1 := by omega
  have h4 : (1 : ℚ).num = 1 := rfl
  have h5 : (1 : ℚ).den = 1 := rfl
  exact Rat.ext (by rw [h3, h4]) (by rw [h2, h5])

theorem ratGcd_map_div_self {l : List ℚ} (hg : ratGcd l ≠ 0) :
    ratGcd (l.map (fun c => c / ratGcd l)) = 1 := by
  have hfe : (l.map (fun c => c / ratGcd l)).filter (fun q => q ≠ 0) =
      (l.filter (fun q => q ≠ 0)).map (fun c => c / ratGcd l) := by
    rw [List.filter_map]
    congr 1
    refine List.filter_congr (fun q _ => ?_)
    simp only [Function.comp]
    rw [decide_eq_decide]
    constructor
    · intro hne h
      exact hne (by rw [h, zero_div])
    · intro hne h
      exact hne ((div_eq_zero_iff.1 h).resolve_right hg)
  have hlfne : l.filter (fun q => q ≠ 0) ≠ [] := by
    intro hemp
    apply hg
    rw [← ratGcd_filter l, hemp]
    rw [ratGcd]
    simp [ratGcdNum]
  have hlf0 : (0 : ℚ) ∉ l.filter (fun q => q ≠ 0) := by
    intro hmem
    have := List.of_mem_filter hmem
    simp at this
  have hlfmap0 : (0 : ℚ) ∉ (l.filter (fun q => q ≠ 0)).map (fun c => c / ratGcd l) := by
    intro hmem
    obtain ⟨q, hq, he⟩ := List.mem_map.1 hmem
    have hqne : q ≠ 0 := by
      have := List.of_mem_filter hq
      simpa using this
    exact hqne ((div_eq_zero_iff.1 he).resolve_right hg)
  have hlfmapne : (l.filter (fun q => q ≠ 0)).map (fun c => c / ratGcd l) ≠ [] := by
    simpa using hlfne
  have hval : ∀ p : ℕ, p.Prime →
      padicValRat p (ratGcd (l.map (fun c => c / ratGcd l))) = 0 := by
    intro p hp
    rw [← ratGcd_filter (l.map (fun c => c / ratGcd l)), hfe,
      padicValRat_ratGcd hp hlfmapne hlfmap0, List.map_map]
    have hcongr : ((l.filter (fun q => q ≠ 0)).map
        (multRat p ∘ fun c => c / ratGcd l)) =
        ((l.filter (fun q => q ≠ 0)).map (multRat p)).map
          (fun x => x - padicValRat p (ratGcd l)) := by
      rw [List.map_map]
      refine List.map_congr_left (fun q hq => ?_)
      have hqne : q ≠ 0 := by
        have := List.of_mem_filter hq
        simpa using this
      simp only [Function.comp]
      exact multRat_div hp hqne hg
    rw [hcongr, listMinInt_map_sub _ _ (by simpa using hlfne),
      ← padicValRat_ratGcd hp hlfne hlf0, ratGcd_filter]
    ring
  have hpos : 0 < ratGcd (l.map (fun c => c / ratGcd l)) := by
    rcases lt_or_eq_of_le (ratGcd_nonneg (l.map (fun c => c / ratGcd l))) with h | h
    · exact h
    · exfalso
      have hne : ratGcd (l.map (fun c => c / ratGcd l)) ≠ 0 := by
        rw [← ratGcd_filter (l.map (fun c => c / ratGcd l)), hfe]
        exact ratGcd_ne_zero hlfmapne hlfmap0
      exact hne h.symm
  exact rat_eq_one_of_vals_zero hpos hval

theorem ite_coprime_normalized {α : Type} (x y : α) :
    (if ("coprime" : String) = "normalized" then x else y) = y :=
  if_neg (by decide)

theorem quinticFinish_coprime_gcd {coeffs t : List ℚ}
    (h : quinticFinish ratCtx "coprime" coeffs = .ok t) : ratGcd t = 1 := by
  rw [quinticFinish, if_pos rfl] at h
  by_cases hg : ratCtx.gcdFn coeffs = 0
  · rw [if_pos hg] at h
    cases h
  · rw [if_neg hg] at h
    injection h with h
    rw [← h]
    have hg' : ratGcd coeffs ≠ 0 := hg
    exact ratGcd_map_div_self hg'

theorem quinticCase_coprime_gcd {A B C M N R : ℚ} {t : List ℚ}
    (h : quinticCase ratCtx "coprime" A B C M N R = .ok t) : ratGcd t = 1 := by
  rw [quinticCase] at h
  simp only [ite_coprime_normalized] at h
  split_ifs at h
  any_goals cases h
  all_goals
    first
      | (rw [quinticTailAG, quinticCommon] at h
         exact quinticFinish_coprime_gcd h)
      | (rw [quinticTailAB, quinticCommon] at h
         exact quinticFinish_coprime_gcd h)
      | with_unfolding_all decide

/-! ### The claims -/

/-- C1: over the rationals, `binary_quintic_from_invariants([3,1,2])`
(where `M = 2*3*1 - 3*2 = 0` and `R2 = -75/8` is not a rational square,
so the invariants are first rescaled by powers of `R2`) returns, with
the default options, exactly the stated tuple of six coefficients. -/
theorem quintic_312_exact_value :
    binary_quintic_from_invariants ratCtx [3, 1, 2] "clebsch" "none" =
      .ok [-66741943359375 / 2097152, -125141143798828125 / 134217728, 0,
        52793920040130615234375 / 34359738368,
        19797720015048980712890625 / 1099511627776,
        -4454487003386020660400390625 / 17592186044416] := by
  have h1 : binary_quintic_from_invariants ratCtx [3, 1, 2] "clebsch" "none"
      = quinticMain ratCtx [3, 1, 2] "none" := by with_unfolding_all rfl
  rw [h1, quinticMain]
  norm_num [ratCtx_char, ratCtx_isSquareB, ratCtx_sqrtFn, ratIsSquare_neg75o8,
    clebschM, clebschN, clebschR2]
  rw [quinticCase]
  norm_num
  rw [if_neg (by decide : ¬ ("none" : String) = "normalized")]
  rw [quinticTailAG, quinticCommon, quinticFinish]
  rw [if_neg (by decide : ¬ ("none" : String) = "coprime")]
  norm_num [onesList, List.range_succ, Nat.choose]

/-- C5: `reduce_invariants([6/5, 12, 16], [1, 2, 3])` returns exactly
`[3, 75, 250]`: the gcd `2/5` has primes `2` (exponent `1`) and `5`
(exponent `-1`), the accumulated scalar is `2/5`, and each invariant is
divided by `(2/5)` raised to its weight. -/
theorem reduce_invariants_example :
    reduce_invariants [6 / 5, 12, 16] [1, 2, 3] = .ok [3, 75, 250] := by
  with_unfolding_all decide

/-- C3: the dispatcher rejects degree `6` with the `UnsupportedDegree`
kind, but its message is "No reconstruction for binary forms of 6
implemented." — the word "degree" claimed by the specification (and by
the module's own doctests) does not appear in the message built by the
code. -/
theorem binary_form_degree6_message_bug :
    binary_form_from_invariants 6 [1, 2, 3] "default" "none" =
      .error (.unsupportedDegree "No reconstruction for binary forms of 6 implemented.") ∧
    "No reconstruction for binary forms of 6 implemented." ≠
      "No reconstruction for binary forms of degree 6 implemented." :=
  ⟨by with_unfolding_all rfl, by decide⟩

/-- C2 (counterexample): a list of two invariants does not produce the
"requires 3 or 4 invariants" `ValueError`; the unpacking
`A, B, C = invariants[0:3]` fails first, with a different message. -/
theorem quintic_short_list_unpack_error :
    binary_quintic_from_invariants ratCtx [1, 2] "clebsch" "none" =
      .error (.invalidInput "need more than 2 values to unpack") ∧
    binary_quintic_from_invariants ratCtx [1, 2] "clebsch" "none" ≠
      .error (.invalidInput
        "Incorrect number of invariants provided. This method requires 3 or 4 invariants.") := by
  have h : binary_quintic_from_invariants ratCtx [1, 2] "clebsch" "none" =
      .error (.invalidInput "need more than 2 values to unpack") := by
    with_unfolding_all rfl
  exact ⟨h, by rw [h]; decide⟩

/-- C2 (amended): with recognized tags, a list of five or more
invariants over a domain of characteristic not `2`, `3` or `5` fails
with the "requires 3 or 4 invariants" `ValueError`; a list of at most
two invariants fails earlier, when the unpacking
`A, B, C = invariants[0:3]` raises; and the count check is not performed
immediately on validation: over a domain of characteristic `2`, `3` or
`5` the characteristic error preempts it. -/
theorem quintic_wrong_length_errors {K : Type} [Field K] [DecidableEq K]
    (ctx : QuinticCtx K) (invariants : List K) (choice scaling : String) :
    (choice ∈ ["default", "clebsch"] → scaling ∈ ["none", "normalized", "coprime"] →
      5 ≤ invariants.length → ¬(ctx.char = 2 ∨ ctx.char = 3 ∨ ctx.char = 5) →
      binary_quintic_from_invariants ctx invariants choice scaling =
        .error (.invalidInput
          "Incorrect number of invariants provided. This method requires 3 or 4 invariants.")) ∧
    (choice ∈ ["default", "clebsch"] → scaling ∈ ["none", "normalized", "coprime"] →
      invariants.length ≤ 2 →
      binary_quintic_from_invariants ctx invariants choice scaling =
        .error (.invalidInput
          ("need more than " ++ toString invariants.length ++
            (if invariants.length = 1 then " value" else " values") ++ " to unpack"))) ∧
    (choice ∈ ["default", "clebsch"] → scaling ∈ ["none", "normalized"] →
      3 ≤ invariants.length → (ctx.char = 2 ∨ ctx.char = 3 ∨ ctx.char = 5) →
      binary_quintic_from_invariants ctx invariants choice scaling =
        .error (.unsupportedDomain
          "No reconstruction of binary quintics implemented for fields of characteristic 2, 3 or 5.")) := by
  refine ⟨?_, ?_, ?_⟩
  · intro hc hs hlen hchar
    rw [binary_quintic_from_invariants, if_neg (not_not_intro hc), if_neg (not_not_intro hs)]
    have hred : (if scaling = "coprime" then
          (if invariants.length = 3 then ctx.reduceFn invariants [1, 2, 3]
           else if invariants.length = 4 then ctx.reduceFn invariants [2, 4, 6, 9]
           else .ok invariants)
        else .ok invariants) = .ok invariants := by
      split_ifs <;> first | rfl | omega
    rw [hred]
    rcases invariants with _ | ⟨a, _ | ⟨b, _ | ⟨c, rest⟩⟩⟩ <;> simp only [List.length] at hlen <;>
      try omega
    simp only [quinticMain]
    split_ifs <;> first | rfl | omega
  · intro hc hs hlen
    rw [binary_quintic_from_invariants, if_neg (not_not_intro hc), if_neg (not_not_intro hs)]
    have hred : (if scaling = "coprime" then
          (if invariants.length = 3 then ctx.reduceFn invariants [1, 2, 3]
           else if invariants.length = 4 then ctx.reduceFn invariants [2, 4, 6, 9]
           else .ok invariants)
        else .ok invariants) = .ok invariants := by
      split_ifs <;> first | rfl | omega
    rw [hred]
    rcases invariants with _ | ⟨a, _ | ⟨b, _ | ⟨c, rest⟩⟩⟩
    · simp [quinticMain]
    · simp [quinticMain]
    · simp [quinticMain]
    · simp only [List.length] at hlen; omega
  · intro hc hs hlen hchar
    have hs3 : scaling ∈ ["none", "normalized", "coprime"] := by
      simp only [List.mem_cons, List.mem_singleton, List.not_mem_nil, or_false] at hs ⊢
      tauto
    rw [binary_quintic_from_invariants, if_neg (not_not_intro hc), if_neg (not_not_intro hs3)]
    have hncop : ¬ scaling = "coprime" := by
      simp only [List.mem_cons, List.mem_singleton, List.not_mem_nil, or_false] at hs
      rcases hs with h | h <;> subst h <;> decide
    rw [if_neg hncop]
    rcases invariants with _ | ⟨a, _ | ⟨b, _ | ⟨c, rest⟩⟩⟩ <;> simp only [List.length] at hlen <;>
      try omega
    simp only [quinticMain]
    rw [if_pos hchar]

/-- C2 (witness): concrete runs of the three amended cases: a
five-element list over `ℚ`, a two-element list over `ℚ`, and a
three-element list over `GF(5)`. -/
theorem quintic_wrong_length_errors_witness :
    binary_quintic_from_invariants ratCtx [1, 1, 1, 1, 1] "clebsch" "none" =
      .error (.invalidInput
        "Incorrect number of invariants provided. This method requires 3 or 4 invariants.") ∧
    binary_quintic_from_invariants ratCtx [1, 2] "clebsch" "none" =
      .error (.invalidInput "need more than 2 values to unpack") ∧
    binary_quintic_from_invariants zmod5Ctx [1, 2, 3] "clebsch" "none" =
      .error (.unsupportedDomain
        "No reconstruction of binary quintics implemented for fields of characteristic 2, 3 or 5.") :=
  ⟨(quintic_wrong_length_errors ratCtx [1, 1, 1, 1, 1] "clebsch" "none").1
      (by decide) (by decide) (by decide) (by decide),
   (quintic_wrong_length_errors ratCtx [1, 2] "clebsch" "none").2.1
      (by decide) (by decide) (by decide),
   (quintic_wrong_length_errors zmod5Ctx [1, 2, 3] "clebsch" "none").2.2
      (by decide) (by decide) (by decide) (by decide)⟩

/-- C4: after the syzygy root has been determined, the degenerate
configurations are resolved exactly as the specification lists them:
`M = 0, N = 0, A = 0` is ambiguous (a threefold linear factor, spelled
"treefold" by the code); the five other special configurations return
their closed-form coefficient tuples. -/
theorem quintic_degenerate_cases {K : Type} [Field K] [DecidableEq K]
    (ctx : QuinticCtx K) (scaling : String) (A B C M N R : K) :
    (M = 0 → N = 0 → A = 0 →
      quinticCase ctx scaling A B C M N R = .error (.ambiguousReconstruction
        "No unique reconstruction possible for quintics with a treefold linear factor.")) ∧
    (M = 0 → N = 0 → A ≠ 0 → B = 0 →
      quinticCase ctx scaling A B C M N R = .ok [1, 0, 0, 0, 0, 1]) ∧
    (M = 0 → N = 0 → A ≠ 0 → B ≠ 0 →
      quinticCase ctx scaling A B C M N R = .ok [0, 1, 0, 0, 1, 0]) ∧
    (M = 0 → N ≠ 0 → A = 0 →
      quinticCase ctx scaling A B C M N R = .ok [1, 0, 0, 0, 1, 0]) ∧
    (M ≠ 0 → R = 0 → A = 0 →
      quinticCase ctx scaling A B C M N R = .ok [1, 0, 10, 0, -15, 0]) ∧
    (M ≠ 0 → R ≠ 0 → A = 0 → B = 0 →
      quinticCase ctx scaling A B C M N R = .ok [1, 0, 0, 1, 0, 0]) := by
  refine ⟨?_, ?_, ?_, ?_, ?_, ?_⟩
  · intro h1 h2 h3; simp [quinticCase, h1, h2, h3]
  · intro h1 h2 h3 h4; simp [quinticCase, h1, h2, h3, h4]
  · intro h1 h2 h3 h4; simp [quinticCase, h1, h2, h3, h4]
  · intro h1 h2 h3; simp [quinticCase, h1, h2, h3]
  · intro h1 h2 h3; simp [quinticCase, h1, h2, h3]
  · intro h1 h2 h3 h4; simp [quinticCase, h1, h2, h3, h4]

/-- C4 (witness): one concrete instance of each special configuration
over `ℚ`. -/
theorem quintic_degenerate_cases_witness :
    quinticCase ratCtx "none" 0 0 0 0 0 0 = .error (.ambiguousReconstruction
      "No unique reconstruction possible for quintics with a treefold linear factor.") ∧
    quinticCase ratCtx "none" 1 0 0 0 0 0 = .ok [1, 0, 0, 0, 0, 1] ∧
    quinticCase ratCtx "none" 1 1 0 0 0 0 = .ok [0, 1, 0, 0, 1, 0] ∧
    quinticCase ratCtx "none" 0 0 0 0 1 0 = .ok [1, 0, 0, 0, 1, 0] ∧
    quinticCase ratCtx "none" 0 0 0 1 0 0 = .ok [1, 0, 10, 0, -15, 0] ∧
    quinticCase ratCtx "none" 0 0 0 1 0 1 = .ok [1, 0, 0, 1, 0, 0] :=
  ⟨(quintic_degenerate_cases ratCtx "none" 0 0 0 0 0 0).1 rfl rfl rfl,
   (quintic_degenerate_cases ratCtx "none" 1 0 0 0 0 0).2.1 rfl rfl (by decide) rfl,
   (quintic_degenerate_cases ratCtx "none" 1 1 0 0 0 0).2.2.1 rfl rfl (by decide) (by decide),
   (quintic_degenerate_cases ratCtx "none" 0 0 0 0 1 0).2.2.2.1 rfl (by decide) rfl,
   (quintic_degenerate_cases ratCtx "none" 0 0 0 1 0 0).2.2.2.2.1 (by decide) rfl rfl,
   (quintic_degenerate_cases ratCtx "none" 0 0 0 1 0 1).2.2.2.2.2 (by decide) (by decide) rfl rfl⟩

/-- C7 (counterexample): with the recognized tag `scaling='coprime'`
and the four invariants `[0, 0, 0, 1]` (characteristic `0`), the routine
does not raise the syzygy `InvalidInput` error even though
`R^2 = 1 ≠ 0 = R2`: the `coprime` reduction fails first, factoring `0`. -/
theorem quintic_syzygy_coprime_zero_counterexample :
    binary_quintic_from_invariants ratCtx [0, 0, 0, 1] "clebsch" "coprime" =
      .error (.arithmeticError "factorization of 0 is not defined") ∧
    (1 : ℚ) ^ 2 ≠ clebschR2 (0 : ℚ) 0 0 ∧
    binary_quintic_from_invariants ratCtx [0, 0, 0, 1] "clebsch" "coprime" ≠
      .error (.invalidInput
        "Provided invariants do not satisfy the syzygy for Clebsch invariants of a binary quintic.") := by
  have h : binary_quintic_from_invariants ratCtx [0, 0, 0, 1] "clebsch" "coprime" =
      .error (.arithmeticError "factorization of 0 is not defined") := by
    with_unfolding_all rfl
  refine ⟨h, ?_, by rw [h]; decide⟩
  norm_num [clebschR2, clebschM, clebschN]

/-- C7 (amended): with recognized tags and characteristic `0`, on four
invariants `[A, B, C, R]` with `scaling` equal to `none` or
`normalized`, the routine fails with the syzygy `InvalidInput` error
exactly when `R^2 ≠ R2`, and otherwise uses the supplied `R` with the
unrescaled triple; with `scaling='coprime'` and all four invariants
nonzero, the same characterization holds (the syzygy is tested on the
reduced invariants, which is equivalent), the root used being the
reduced fourth value. -/
theorem quintic_syzygy_check (A B C R : ℚ) (choice scaling : String)
    (hc : choice ∈ ["default", "clebsch"]) :
    (scaling ∈ ["none", "normalized"] →
      (binary_quintic_from_invariants ratCtx [A, B, C, R] choice scaling =
          .error (.invalidInput
            "Provided invariants do not satisfy the syzygy for Clebsch invariants of a binary quintic.")
        ↔ R ^ 2 ≠ clebschR2 A B C)) ∧
    (scaling ∈ ["none", "normalized"] → R ^ 2 = clebschR2 A B C →
      binary_quintic_from_invariants ratCtx [A, B, C, R] choice scaling =
        quinticCase ratCtx scaling A B C (clebschM A B C) (clebschN A B C) R) ∧
    (A ≠ 0 → B ≠ 0 → C ≠ 0 → R ≠ 0 →
      (binary_quintic_from_invariants ratCtx [A, B, C, R] choice "coprime" =
          .error (.invalidInput
            "Provided invariants do not satisfy the syzygy for Clebsch invariants of a binary quintic.")
        ↔ R ^ 2 ≠ clebschR2 A B C)) ∧
    (A ≠ 0 → B ≠ 0 → C ≠ 0 → R ≠ 0 → R ^ 2 = clebschR2 A B C →
      binary_quintic_from_invariants ratCtx [A, B, C, R] choice "coprime" =
        quinticCase ratCtx "coprime"
          (A * reduceScalar [A, B, C, R] [2, 4, 6, 9] ^ (-(2 : ℤ)))
          (B * reduceScalar [A, B, C, R] [2, 4, 6, 9] ^ (-(4 : ℤ)))
          (C * reduceScalar [A, B, C, R] [2, 4, 6, 9] ^ (-(6 : ℤ)))
          (clebschM (A * reduceScalar [A, B, C, R] [2, 4, 6, 9] ^ (-(2 : ℤ)))
            (B * reduceScalar [A, B, C, R] [2, 4, 6, 9] ^ (-(4 : ℤ)))
            (C * reduceScalar [A, B, C, R] [2, 4, 6, 9] ^ (-(6 : ℤ))))
          (clebschN (A * reduceScalar [A, B, C, R] [2, 4, 6, 9] ^ (-(2 : ℤ)))
            (B * reduceScalar [A, B, C, R] [2, 4, 6, 9] ^ (-(4 : ℤ)))
            (C * reduceScalar [A, B, C, R] [2, 4, 6, 9] ^ (-(6 : ℤ))))
          (R * reduceScalar [A, B, C, R] [2, 4, 6, 9] ^ (-(9 : ℤ)))) := by
  refine ⟨?_, ?_, ?_, ?_⟩
  · intro hs
    rw [quintic_reaches_main ratCtx _ _ _ hc hs, quinticMain_four]
    by_cases h : R ^ 2 = clebschR2 A B C
    · rw [if_neg (not_not_intro h)]
      constructor
      · intro hcontra
        exact absurd hcontra (quinticCase_ne_invalidInput _ _ _ _ _ _ _ _ _)
      · intro hne
        exact absurd h hne
    · rw [if_pos h]
      simp [h]
  · intro hs h
    rw [quintic_reaches_main ratCtx _ _ _ hc hs, quinticMain_four,
      if_neg (not_not_intro h)]
  · intro hA hB hC hR
    have hmain : binary_quintic_from_invariants ratCtx [A, B, C, R] choice "coprime" =
        quinticMain ratCtx
          [A * reduceScalar [A, B, C, R] [2, 4, 6, 9] ^ (-(2 : ℤ)),
            B * reduceScalar [A, B, C, R] [2, 4, 6, 9] ^ (-(4 : ℤ)),
            C * reduceScalar [A, B, C, R] [2, 4, 6, 9] ^ (-(6 : ℤ)),
            R * reduceScalar [A, B, C, R] [2, 4, 6, 9] ^ (-(9 : ℤ))] "coprime" := by
      rw [binary_quintic_from_invariants, if_neg (not_not_intro hc),
        if_neg (by decide : ¬ ("coprime" : String) ∉ ["none", "normalized", "coprime"]),
        if_pos rfl, if_neg (by simp : ¬ ([A, B, C, R].length = 3)),
        if_pos (by simp : [A, B, C, R].length = 4), ratCtx_reduceFn,
        reduce_invariants_four hA hB hC hR]
    rw [hmain, quinticMain_four]
    rw [if_congr (not_congr (clebschR2_scaling A B C R _
      (reduceScalar_ne_zero [A, B, C, R] [2, 4, 6, 9]))) rfl rfl]
    by_cases h : R ^ 2 = clebschR2 A B C
    · rw [if_neg (not_not_intro h)]
      constructor
      · intro hcontra
        exact absurd hcontra (quinticCase_ne_invalidInput _ _ _ _ _ _ _ _ _)
      · intro hne
        exact absurd h hne
    · rw [if_pos h]
      simp [h]
  · intro hA hB hC hR h
    have hmain : binary_quintic_from_invariants ratCtx [A, B, C, R] choice "coprime" =
        quinticMain ratCtx
          [A * reduceScalar [A, B, C, R] [2, 4, 6, 9] ^ (-(2 : ℤ)),
            B * reduceScalar [A, B, C, R] [2, 4, 6, 9] ^ (-(4 : ℤ)),
            C * reduceScalar [A, B, C, R] [2, 4, 6, 9] ^ (-(6 : ℤ)),
            R * reduceScalar [A, B, C, R] [2, 4, 6, 9] ^ (-(9 : ℤ))] "coprime" := by
      rw [binary_quintic_from_invariants, if_neg (not_not_intro hc),
        if_neg (by decide : ¬ ("coprime" : String) ∉ ["none", "normalized", "coprime"]),
        if_pos rfl, if_neg (by simp : ¬ ([A, B, C, R].length = 3)),
        if_pos (by simp : [A, B, C, R].length = 4), ratCtx_reduceFn,
        reduce_invariants_four hA hB hC hR]
    rw [hmain, quinticMain_four]
    rw [if_congr (not_congr (clebschR2_scaling A B C R _
      (reduceScalar_ne_zero [A, B, C, R] [2, 4, 6, 9]))) rfl rfl]
    rw [if_neg (not_not_intro h)]

/-- C7 (witness): the quadruple `[1, 0, 0, 0]` satisfies the syzygy
(`R2 = 0`) and reconstructs through the case split with the supplied
root `0`; the nonzero quadruple `[1, -1, -1, 1]` satisfies the syzygy
(`R2 = 1`) under `coprime` scaling. -/
theorem quintic_syzygy_check_witness :
    (binary_quintic_from_invariants ratCtx [1, 0, 0, 0] "clebsch" "none" =
        .error (.invalidInput
          "Provided invariants do not satisfy the syzygy for Clebsch invariants of a binary quintic.")
      ↔ (0 : ℚ) ^ 2 ≠ clebschR2 (1 : ℚ) 0 0) ∧
    binary_quintic_from_invariants ratCtx [1, 0, 0, 0] "clebsch" "none" =
      quinticCase ratCtx "none" 1 0 0 (clebschM 1 0 0) (clebschN 1 0 0) 0 ∧
    (binary_quintic_from_invariants ratCtx [1, -1, -1, 1] "clebsch" "coprime" =
        .error (.invalidInput
          "Provided invariants do not satisfy the syzygy for Clebsch invariants of a binary quintic.")
      ↔ (1 : ℚ) ^ 2 ≠ clebschR2 (1 : ℚ) (-1) (-1)) ∧
    binary_quintic_from_invariants ratCtx [1, -1, -1, 1] "clebsch" "coprime" =
      quinticCase ratCtx "coprime"
        (1 * reduceScalar [1, -1, -1, 1] [2, 4, 6, 9] ^ (-(2 : ℤ)))
        ((-1) * reduceScalar [1, -1, -1, 1] [2, 4, 6, 9] ^ (-(4 : ℤ)))
        ((-1) * reduceScalar [1, -1, -1, 1] [2, 4, 6, 9] ^ (-(6 : ℤ)))
        (clebschM (1 * reduceScalar [1, -1, -1, 1] [2, 4, 6, 9] ^ (-(2 : ℤ)))
          ((-1) * reduceScalar [1, -1, -1, 1] [2, 4, 6, 9] ^ (-(4 : ℤ)))
          ((-1) * reduceScalar [1, -1, -1, 1] [2, 4, 6, 9] ^ (-(6 : ℤ))))
        (clebschN (1 * reduceScalar [1, -1, -1, 1] [2, 4, 6, 9] ^ (-(2 : ℤ)))
          ((-1) * reduceScalar [1, -1, -1, 1] [2, 4, 6, 9] ^ (-(4 : ℤ)))
          ((-1) * reduceScalar [1, -1, -1, 1] [2, 4, 6, 9] ^ (-(6 : ℤ))))
        (1 * reduceScalar [1, -1, -1, 1] [2, 4, 6, 9] ^ (-(9 : ℤ))) :=
  ⟨(quintic_syzygy_check 1 0 0 0 "clebsch" "none" (by decide)).1 (by decide),
   (quintic_syzygy_check 1 0 0 0 "clebsch" "none" (by decide)).2.1 (by decide)
     (by norm_num [clebschR2, clebschM, clebschN]),
   (quintic_syzygy_check 1 (-1) (-1) 1 "clebsch" "coprime" (by decide)).2.2.1
     (by decide) (by decide) (by decide) (by decide),
   (quintic_syzygy_check 1 (-1) (-1) 1 "clebsch" "coprime" (by decide)).2.2.2
     (by decide) (by decide) (by decide) (by decide)
     (by norm_num [clebschR2, clebschM, clebschN])⟩

/-- C6: with a recognized `invariant_choice`,
`binary_cubic_from_invariants` fails with the double-root
`AmbiguousReconstruction` error exactly when the discriminant vanishes,
and returns `(0, 1, -1, 0)` for every nonzero discriminant. -/
theorem cubic_reconstruction_iff (d : ℚ) (choice : String)
    (hc : choice ∈ ["default", "discriminant"]) :
    (binary_cubic_from_invariants d choice = .error (.ambiguousReconstruction
        "No unique reconstruction possible for binary cubics with a double root.") ↔ d = 0) ∧
    (d ≠ 0 → binary_cubic_from_invariants d choice = .ok [0, 1, -1, 0]) := by
  rw [binary_cubic_from_invariants, if_neg (not_not_intro hc)]
  by_cases hd : d = 0
  · simp [hd]
  · simp [hd]

/-- C8: under each branch guard of the `normalized` scaling, the
quantities inverted by the scale-factor formulas are nonzero, so
recomputing each scale list with checked division succeeds and returns
exactly the list used by `quinticCase`: `A` is inverted under
`M = 0, N ≠ 0, A ≠ 0` (`scaleAG`), `sqrt(A)` under `M ≠ 0, R = 0, A ≠ 0`
(`scaleSqrtA`, with `sqrt(A)^2 = A`), `R` and `B` under
`M ≠ 0, R ≠ 0, A = 0, B ≠ 0` (`scaleRB`), and `A` under
`M ≠ 0, R ≠ 0, A ≠ 0` (`scaleA9`). -/
theorem quintic_scale_no_div_zero {K : Type} [Field K] [DecidableEq K]
    (sqrtA A B M N R : K) :
    (M = 0 → N ≠ 0 → A ≠ 0 → scaleAGChk A R = some (scaleAG A R)) ∧
    (M ≠ 0 → R = 0 → A ≠ 0 → sqrtA * sqrtA = A →
      scaleSqrtAChk sqrtA = some (scaleSqrtA sqrtA)) ∧
    (M ≠ 0 → R ≠ 0 → A = 0 → B ≠ 0 → scaleRBChk B R = some (scaleRB B R)) ∧
    (M ≠ 0 → R ≠ 0 → A ≠ 0 → scaleA9Chk A R = some (scaleA9 A R)) := by
  refine ⟨?_, ?_, ?_, ?_⟩
  · intro _ _ hA
    have h3 : A ^ 3 ≠ 0 := pow_ne_zero _ hA
    simp [scaleAGChk, checkedZpow, checkedDiv, scaleAG, hA, h3]
  · intro _ _ hA hsq
    have hs : sqrtA ≠ 0 := by
      intro h0
      rw [h0, mul_zero] at hsq
      exact hA hsq.symm
    simp [scaleSqrtAChk, checkedZpow, optionList, List.range_succ, scaleSqrtA, hs]
  · intro _ hR _ hB
    have h2 : B ^ 2 ≠ 0 := pow_ne_zero _ hB
    simp [scaleRBChk, checkedZpow, checkedDiv, scaleRB, hR, h2]
  · intro _ hR hA
    have h4 : A ^ 4 ≠ 0 := pow_ne_zero _ hA
    simp [scaleA9Chk, checkedZpow, checkedDiv, scaleA9, hA, h4]

/-- C8 (witness): concrete instances of the four branches over `ℚ`,
with `sqrt(4) = 2` computed by the rational square-root model. -/
theorem quintic_scale_no_div_zero_witness :
    scaleAGChk (2 : ℚ) 3 = some (scaleAG 2 3) ∧
    scaleSqrtAChk (ratSqrt 4) = some (scaleSqrtA (ratSqrt 4)) ∧
    scaleRBChk (2 : ℚ) 3 = some (scaleRB 2 3) ∧
    scaleA9Chk (2 : ℚ) 3 = some (scaleA9 2 3) :=
  ⟨(quintic_scale_no_div_zero (0 : ℚ) 2 1 0 1 3).1 rfl (by decide) (by decide),
   (quintic_scale_no_div_zero (ratSqrt 4) 4 1 1 1 0).2.1 (by decide) rfl (by decide)
      (by with_unfolding_all decide),
   (quintic_scale_no_div_zero (0 : ℚ) 0 2 1 1 3).2.2.1 (by decide) (by decide) rfl (by decide),
   (quintic_scale_no_div_zero (0 : ℚ) 2 1 1 1 3).2.2.2 (by decide) (by decide) (by decide)⟩

/-- C6 (witness): the discriminant `1` is reconstructed as
`(0, 1, -1, 0)` and does not raise. -/
theorem cubic_reconstruction_iff_witness :
    (binary_cubic_from_invariants 1 "default" = .error (.ambiguousReconstruction
        "No unique reconstruction possible for binary cubics with a double root.") ↔ (1 : ℚ) = 0) ∧
    binary_cubic_from_invariants 1 "default" = .ok [0, 1, -1, 0] :=
  ⟨(cubic_reconstruction_iff 1 "default" (by decide)).1,
   (cubic_reconstruction_iff 1 "default" (by decide)).2 (by decide)⟩


/-- C9: `reduce_invariants` is idempotent — reducing its own output (for
positive weights matching the invariants in number) returns that output
unchanged — and `binary_quintic_from_invariants` with
`scaling='coprime'` on invariants that are their own reduction runs the
main body directly on them, the reduction step being a no-op. -/
theorem reduce_invariants_idempotent :
    (∀ (l : List ℚ) (w : List ℤ) (l' : List ℚ), w.length = l.length →
      (∀ x ∈ w, 0 < x) → reduce_invariants l w = .ok l' →
      reduce_invariants l' w = .ok l') ∧
    (∀ (l : List ℚ) (choice : String), choice ∈ ["default", "clebsch"] →
      l.length = 3 → reduce_invariants l [1, 2, 3] = .ok l →
      binary_quintic_from_invariants ratCtx l choice "coprime" =
        quinticMain ratCtx l "coprime") := by
  constructor
  · intro l w l' hlen hw hred
    by_cases hg : l = [] ∨ (0 : ℚ) ∈ l
    · rw [reduce_invariants, if_pos hg] at hred
      exact absurd hred (by simp)
    push_neg at hg
    obtain ⟨hl, h0⟩ := hg
    have hwne : w.length ≠ 0 := by
      rw [hlen]
      simpa using (List.length_pos.2 hl).ne'
    have hS : reduceScalar l w ≠ 0 := reduceScalar_ne_zero l w
    rw [reduce_invariants_ok w hl h0] at hred
    have hl' : l' = (List.range w.length).map
        (fun i => l.getD i 0 * reduceScalar l w ^ (-(w.getD i 0))) := by
      injection hred with h
      exact h.symm
    have hlen' : l'.length = w.length := by
      rw [hl']
      simp
    have hxne : ∀ i, i < w.length → l.getD i 0 ≠ 0 := by
      intro i hi
      exact fun h => h0 (h ▸ getD_mem (by omega) 0)
    have h0' : (0 : ℚ) ∉ l' := by
      rw [hl']
      intro hmem
      obtain ⟨i, hi, he⟩ := List.mem_map.1 hmem
      rw [List.mem_range] at hi
      exact mul_ne_zero (hxne i hi) (zpow_ne_zero _ hS) he
    have hne' : l' ≠ [] := by
      intro h
      rw [h] at hlen'
      exact hwne hlen'.symm
    have hentry : ∀ (p : ℕ), p.Prime → ∀ i, i < w.length →
        multRat p (l'.getD i 0) =
          multRat p (l.getD i 0) - w.getD i 0 * padicValRat p (reduceScalar l w) := by
      intro p hp i hi
      rw [hl', getD_map_range _ _ _ hi,
        multRat_mul_zpow hp (hxne i hi) hS, neg_mul]
      ring
    have hmapeq : ∀ (p : ℕ), p.Prime →
        l'.map (multRat p) = (List.range w.length).map
          (fun i => multRat p (l.getD i 0) - w.getD i 0 * padicValRat p (reduceScalar l w)) := by
      intro p hp
      have h1 : l'.map (multRat p) = (List.range l'.length).map
          (fun i => multRat p (l'.getD i 0)) := (map_range_getD (multRat p) 0 l').symm
      rw [h1, hlen']
      refine List.map_congr_left (fun i hi => ?_)
      exact hentry p hp i (List.mem_range.1 hi)
    have hexp : ∀ (p : ℕ), p.Prime → reduceExp l' w p =
        reduceExp l w p - padicValRat p (reduceScalar l w) := by
      intro p hp
      rw [reduceExp, reduceExp, ← listMinInt_map_sub_range w.length hwne
        (fun i => Int.fdiv (multRat p (l.getD i 0)) (w.getD i 0))
        (padicValRat p (reduceScalar l w))]
      refine congrArg listMinInt (List.map_congr_left (fun i hi => ?_))
      rw [List.mem_range] at hi
      have hwi : 0 < w.getD i 0 := hw _ (getD_mem hi 0)
      rw [hentry p hp i hi, Int.fdiv_eq_ediv _ (le_of_lt hwi),
        Int.fdiv_eq_ediv _ (le_of_lt hwi)]
      have harr : multRat p (l.getD i 0) - w.getD i 0 * padicValRat p (reduceScalar l w)
          = multRat p (l.getD i 0) +
            (-(padicValRat p (reduceScalar l w))) * (w.getD i 0) := by ring
      rw [harr, Int.add_mul_ediv_right _ _ (ne_of_gt hwi)]
      ring
    have hkey : ∀ p ∈ gcdPrimes l', reduceExp l' w p = 0 := by
      intro p hpmem
      have hp := mem_gcdPrimes_prime hpmem
      have hv := padicValRat_reduceScalar hp l w
      by_cases hmem : p ∈ gcdPrimes l
      · rw [if_pos hmem] at hv
        rw [hexp p hp, hv]
        ring
      · rw [if_neg hmem] at hv
        exfalso
        have h1 := (mem_gcdPrimes_iff hne' h0').1 hpmem
        have h2 : l'.map (multRat p) = l.map (multRat p) := by
          rw [hmapeq p hp]
          have h3 : (List.range w.length).map
              (fun i => multRat p (l.getD i 0) -
                w.getD i 0 * padicValRat p (reduceScalar l w)) =
              (List.range w.length).map (fun i => multRat p (l.getD i 0)) := by
            refine List.map_congr_left (fun i _ => ?_)
            rw [hv]
            ring
          rw [h3, hlen, map_range_getD]
        rw [h2] at h1
        exact hmem ((mem_gcdPrimes_iff hl h0).2 h1)
    have hS1 : reduceScalar l' w = 1 := by
      rw [reduceScalar, Finset.prod_congr rfl
        (fun p hp => by rw [hkey p hp, zpow_zero]), Finset.prod_const_one]
    rw [reduce_invariants_ok w hne' h0', hS1]
    congr 1
    have hone : ∀ i ∈ List.range w.length,
        l'.getD i 0 * (1 : ℚ) ^ (-(w.getD i 0)) = (fun j => l'.getD j 0) i := by
      intro i _
      rw [one_zpow, mul_one]
    rw [List.map_congr_left hone, ← hlen']
    have := map_range_getD (fun x : ℚ => x) 0 l'
    simpa using this
  · intro l choice hc h3 hfix
    rw [binary_quintic_from_invariants, if_neg (not_not_intro hc),
      if_neg (by decide : ¬ ("coprime" : String) ∉ ["none", "normalized", "coprime"]),
      if_pos rfl, if_pos h3, ratCtx_reduceFn, hfix]

/-- C9 (witness): `[3, 75, 250]` is the reduction of `[6/5, 12, 16]` by
weights `[1, 2, 3]`, and reducing it again leaves it unchanged. -/
theorem reduce_invariants_idempotent_witness :
    reduce_invariants [3, 75, 250] [1, 2, 3] = .ok [3, 75, 250] ∧
    binary_quintic_from_invariants ratCtx [3, 75, 250] "clebsch" "coprime" =
      quinticMain ratCtx [3, 75, 250] "coprime" :=
  ⟨reduce_invariants_idempotent.1 [6 / 5, 12, 16] [1, 2, 3] [3, 75, 250]
      (by decide) (by decide) (by with_unfolding_all decide),
   reduce_invariants_idempotent.2 [3, 75, 250] "clebsch" (by decide) (by decide)
      (reduce_invariants_idempotent.1 [6 / 5, 12, 16] [1, 2, 3] [3, 75, 250]
        (by decide) (by decide) (by with_unfolding_all decide))⟩


/-- C10: with `scaling='coprime'` and a recognized `invariant_choice`,
every successful run of `binary_quintic_from_invariants` over the
rationals returns a coefficient tuple whose rational gcd is `1`: the
special-case early returns contain a coefficient `1` and bypass the
final division, while the general path divides all six coefficients by
their (nonzero) gcd. -/
theorem quintic_coprime_unit_gcd (invariants : List ℚ) (choice : String)
    (hc : choice ∈ ["default", "clebsch"]) (t : List ℚ)
    (h : binary_quintic_from_invariants ratCtx invariants choice "coprime" = .ok t) :
    ratGcd t = 1 := by
  rw [binary_quintic_from_invariants, if_neg (not_not_intro hc),
    if_neg (by decide : ¬ ("coprime" : String) ∉ ["none", "normalized", "coprime"]),
    if_pos rfl] at h
  rcases hE : (if invariants.length = 3 then ratCtx.reduceFn invariants [1, 2, 3]
      else if invariants.length = 4 then ratCtx.reduceFn invariants [2, 4, 6, 9]
      else Except.ok invariants) with e | invs
  · rw [hE] at h
    exact absurd h (by simp)
  · rw [hE] at h
    have h' : quinticMain ratCtx invs "coprime" = .ok t := h
    rcases invs with _ | ⟨A, _ | ⟨B, _ | ⟨C, rest⟩⟩⟩
    · simp [quinticMain] at h'
    · simp [quinticMain] at h'
    · simp [quinticMain] at h'
    · simp only [quinticMain] at h'
      rw [if_neg (by decide : ¬ (ratCtx.char = 2 ∨ ratCtx.char = 3 ∨ ratCtx.char = 5))] at h'
      split_ifs at h'
      all_goals exact quinticCase_coprime_gcd h'


/-- C10 (witness): the invariants `[3, 6, 12]` (with `M = N = 0` and
`A, B` nonzero) reconstruct under `coprime` scaling to the special tuple
`(0, 1, 0, 0, 1, 0)`, whose gcd is `1`. -/
theorem quintic_coprime_unit_gcd_witness :
    ratGcd [0, 1, 0, 0, 1, 0] = 1 :=
  quintic_coprime_unit_gcd [3, 6, 12] "clebsch" (by decide) [0, 1, 0, 0, 1, 0]
    (by with_unfolding_all decide)
